import Mathlib

/-!
Verification development for the goripr interval-overlay engine.

The engine stores IP-range boundaries in a redis sorted set keyed by the
integer value of the IP, with a hash per boundary holding the fields
low, high and reason.  The two sentinel members "-inf" and "+inf" are
always present (scores minus and plus infinity); the "-inf" hash decodes
to an upper bound and the "+inf" hash to a lower bound.

The shallow embedding below models the store as a sorted association
list from the integer IP to the stored record (lower flag, upper flag,
reason).  The sentinels are not kept in the list: the vicinity queries
return them as defaults when no real record lies on the queried side,
exactly as the sorted-set range queries do.  The planner functions
(Insert, Remove, Find, UpdateReasonOf) are translated branch by branch
from the source; each transactional batch becomes an explicit list of
del and put commands applied in queue order.
-/

namespace Goripr

/-- Stored fields of one boundary hash: the low flag, the high flag and
the reason string. -/
structure Rec where
  lower : Bool
  upper : Bool
  reason : String
deriving DecidableEq

/-- A hydrated boundary as the planner sees it: the IP (none for the two
sentinels, whose net.IP is nil), the two flags and the reason.  This is
the boundary struct of the source with the redundant ID, Int64 and
Float64 fields collapsed into the single ip field. -/
structure Bnd where
  ip : Option Int
  lower : Bool
  upper : Bool
  reason : String
deriving DecidableEq

/-- The hydrated "-inf" sentinel: low = false, high = true, reason "-inf". -/
def ninfBnd : Bnd := ⟨none, false, true, "-inf"⟩

/-- The hydrated "+inf" sentinel: low = true, high = false, reason "+inf". -/
def pinfBnd : Bnd := ⟨none, true, false, "+inf"⟩

/-- IsSingleBound: exactly one of the two flags is set. -/
def Bnd.isSingleBound (b : Bnd) : Bool := b.lower != b.upper

/-- IsLowerBound: a single boundary that is a lower bound. -/
def Bnd.isLowerBound (b : Bnd) : Bool := b.isSingleBound && b.lower

/-- IsUpperBound: a single boundary that is an upper bound. -/
def Bnd.isUpperBound (b : Bnd) : Bool := b.isSingleBound && b.upper

/-- IsDoubleBound: both flags set.  The source panics when both flags
are unset; the flags invariant proved below shows that every boundary
this predicate is applied to by the planner has at least one flag set,
so the panic branch is unreachable and the predicate is modelled as the
plain conjunction. -/
def Bnd.isDoubleBound (b : Bnd) : Bool := b.lower && b.upper

/-- The guard of the panic inside IsDoubleBound (and of the panic inside
the IsSingleBoundary helper of the sibling variant): both flags unset. -/
def Bnd.flagsUnset (b : Bnd) : Bool := !b.lower && !b.upper

/-- HasReason: the reason string is non-empty. -/
def Bnd.hasReason (b : Bnd) : Bool := b.reason != ""

/-- EqualReason: both reasons non-empty and equal. -/
def Bnd.equalReason (a b : Bnd) : Bool :=
  a.hasReason && b.hasReason && (a.reason == b.reason)

/-- EqualIP: net.IP equality; a sentinel has a nil IP, and nil never
equals the IP of a real boundary (the planner only ever compares
against real boundaries). -/
def Bnd.equalIP (a b : Bnd) : Bool :=
  match a.ip, b.ip with
  | some x, some y => x == y
  | _, _ => false

/-- SetLowerBound: make the boundary a single lower bound. -/
def Bnd.setLowerBound (b : Bnd) : Bnd := ⟨b.ip, true, false, b.reason⟩

/-- SetUpperBound: make the boundary a single upper bound. -/
def Bnd.setUpperBound (b : Bnd) : Bnd := ⟨b.ip, false, true, b.reason⟩

/-- SetDoubleBound: set both flags. -/
def Bnd.setDoubleBound (b : Bnd) : Bnd := ⟨b.ip, true, true, b.reason⟩

/-- The stored fields of a boundary. -/
def Bnd.toRec (b : Bnd) : Rec := ⟨b.lower, b.upper, b.reason⟩

/-- The database state: the non-sentinel members of the sorted set with
their hashes, listed in ascending score order.  One member per IP value,
since the member string is the textual IP. -/
abbrev State := List (Int × Rec)

/-- Hydrate a stored record into a planner boundary. -/
def toBnd (e : Int × Rec) : Bnd := ⟨some e.1, e.2.lower, e.2.upper, e.2.reason⟩

/-- The single nearest boundary strictly below p: the reverse range
query over scores up to p - 1 with count 1.  The "-inf" sentinel is the
result when no real record lies below. -/
def nearestBelow (s : State) (p : Int) : Bnd :=
  match (s.filter (fun e => decide (e.1 < p))).getLast? with
  | some e => toBnd e
  | none => ninfBnd

/-- The single nearest boundary strictly above p: the range query from
score p + 1 with count 1, defaulting to the "+inf" sentinel. -/
def nearestAbove (s : State) (p : Int) : Bnd :=
  match (s.filter (fun e => decide (p < e.1))).head? with
  | some e => toBnd e
  | none => pinfBnd

/-- All boundaries with score between lo and hi inclusive, ascending. -/
def insideList (s : State) (lo hi : Int) : State :=
  s.filter (fun e => decide (lo ≤ e.1) && decide (e.1 ≤ hi))

/-- One queued store command: ZRem plus Del of a member, or ZAdd plus
HMSet of a member with its three fields. -/
inductive Op where
  | del (k : Int)
  | put (k : Int) (r : Rec)
deriving DecidableEq

/-- Insert or overwrite one record, keeping the list sorted by score
(ZAdd updates the member in place; HMSet overwrites all three fields). -/
def putRec (k : Int) (r : Rec) : State → State
  | [] => [(k, r)]
  | e :: t =>
    if k < e.1 then (k, r) :: e :: t
    else if k = e.1 then (k, r) :: t
    else e :: putRec k r t

/-- Execute one queued command. -/
def applyOp (s : State) : Op → State
  | .del k => s.filter (fun e => decide (e.1 ≠ k))
  | .put k r => putRec k r s

/-- Execute a transactional batch in queue order. -/
def applyBatch (s : State) (b : List Op) : State := b.foldl applyOp s

/-- The commands queued by boundary.Insert for a planner boundary.  The
planner only ever inserts real boundaries; a sentinel (nil IP) would
address the sentinel hash, which the guards below never allow. -/
def putBnd (b : Bnd) : List Op :=
  match b.ip with
  | some k => [.put k b.toRec]
  | none => []

/-- The below-side case analysis of Insert, translated branch by branch:
returns the queued commands and the insertLowerBound flag. -/
def belowPlan (belowN belowCut lowB : Bnd) : List Op × Bool :=
  if belowN.isLowerBound then
    if !(belowN.equalIP belowCut) then
      if !(belowN.equalReason lowB) then (putBnd belowCut, true)
      else ([], false)
    else
      if !(belowN.equalReason lowB) then (putBnd belowN.setDoubleBound, true)
      else ([], false)
  else if belowN.isDoubleBound && belowN.equalIP belowCut && belowN.equalReason lowB then
    (putBnd belowN.setLowerBound, true)
  else ([], true)

/-- The above-side case analysis of Insert, the mirror of belowPlan:
returns the queued commands and the insertUpperBound flag. -/
def abovePlan (aboveN aboveCut highB : Bnd) : List Op × Bool :=
  if aboveN.isUpperBound then
    if !(aboveN.equalIP aboveCut) then
      if !(aboveN.equalReason highB) then (putBnd aboveCut, true)
      else ([], false)
    else
      if !(aboveN.equalReason highB) then (putBnd aboveN.setDoubleBound, true)
      else ([], false)
  else if aboveN.isDoubleBound && aboveN.equalIP aboveCut && aboveN.equalReason highB then
    (putBnd aboveN.setUpperBound, true)
  else ([], true)

/-- The final insertion block of Insert: a single double boundary when
the two parsed bounds share the IP and both flags survived, otherwise
whichever of the parsed bounds is still to be inserted. -/
def endPuts (lowB highB : Bnd) (insLow insUp : Bool) : List Op :=
  if lowB.equalIP highB && insLow && insUp then putBnd lowB.setDoubleBound
  else if insLow && insUp then putBnd lowB ++ putBnd highB
  else if insLow then putBnd lowB
  else if insUp then putBnd highB
  else []

/-- The integer score of a real parsed boundary. -/
def ipKey (b : Bnd) : Int := b.ip.getD 0

/-- low.Below() with SetUpperBound and the reason of the nearest
boundary below, as Insert and Remove both build it. -/
def belowCutOf (s : State) (L : Int) : Bnd :=
  ⟨some (L - 1), false, true, (nearestBelow s L).reason⟩

/-- high.Above() with SetLowerBound and the reason of the nearest
boundary above, as Insert builds it. -/
def aboveCutOf (s : State) (H : Int) : Bnd :=
  ⟨some (H + 1), true, false, (nearestAbove s H).reason⟩

/-- The below-side commands and insertLowerBound flag of an Insert. -/
def bpOf (s : State) (lowB : Bnd) : List Op × Bool :=
  belowPlan (nearestBelow s (ipKey lowB)) (belowCutOf s (ipKey lowB)) lowB

/-- The above-side commands and insertUpperBound flag of an Insert. -/
def apOf (s : State) (highB : Bnd) : List Op × Bool :=
  abovePlan (nearestAbove s (ipKey highB)) (aboveCutOf s (ipKey highB)) highB

/-- The full transactional batch queued by Insert after the vicinity
query: removals of everything inside, the below-side commands, the
above-side commands, then the final insertions. -/
def insertBatch (s : State) (lowB highB : Bnd) : List Op :=
  ((insideList s (ipKey lowB) (ipKey highB)).map (fun e => Op.del e.1)) ++
    (bpOf s lowB).1 ++ (apOf s highB).1 ++
    endPuts lowB highB (bpOf s lowB).2 (apOf s highB).2

/-- parseRange on a plain IP: both boundaries carry both flags. -/
def parsedSingle (ip : Int) (x : String) : Bnd × Bnd :=
  (⟨some ip, true, true, x⟩, ⟨some ip, true, true, x⟩)

/-- parseRange on a CIDR or a dashed range: a lower-flagged low boundary
and an upper-flagged high boundary. -/
def parsedRange (lo hi : Int) (x : String) : Bnd × Bnd :=
  (⟨some lo, true, false, x⟩, ⟨some hi, false, true, x⟩)

/-- Insert: run the vicinity query, queue the batch, execute it. -/
def InsertOp (s : State) (p : Bnd × Bnd) : State :=
  applyBatch s (insertBatch s p.1 p.2)

/-- The below-side commands of Remove: the below cut (an upper bound at
L - 1 carrying the reason of the nearest boundary below), or promotion
of the adjacent lower bound to a double when it sits exactly at L - 1. -/
def removeBelowOps (s : State) (L : Int) : List Op :=
  if (nearestBelow s L).isLowerBound then
    if !((nearestBelow s L).equalIP ⟨some (L - 1), false, true, (nearestBelow s L).reason⟩) then
      putBnd ⟨some (L - 1), false, true, (nearestBelow s L).reason⟩
    else putBnd (nearestBelow s L).setDoubleBound
  else []

/-- The above-side commands of Remove.  The source builds the above cut
with SetUpperBound, so the record written at H + 1 is an upper bound. -/
def removeAboveOps (s : State) (H : Int) : List Op :=
  if (nearestAbove s H).isUpperBound then
    if !((nearestAbove s H).equalIP ⟨some (H + 1), false, true, (nearestAbove s H).reason⟩) then
      putBnd ⟨some (H + 1), false, true, (nearestAbove s H).reason⟩
    else putBnd (nearestAbove s H).setDoubleBound
  else []

/-- The transactional batch queued by Remove: removals of everything
inside, then the below-side commands, then the above-side commands. -/
def removeBatch (s : State) (L H : Int) : List Op :=
  ((insideList s L H).map (fun e => Op.del e.1)) ++ removeBelowOps s L ++ removeAboveOps s H

/-- Remove: run the vicinity query, queue the batch, execute it. -/
def RemoveOp (s : State) (L H : Int) : State :=
  applyBatch s (removeBatch s L H)

/-- Outcome of Find: a reason, the IPNotFound error, or the process
abort of the panic("reasons inconsistent") branch. -/
inductive FindRes where
  | ok (reason : String)
  | notFound
  | panicked
deriving DecidableEq

/-- Find: vicinity of the single ip; when inside holds exactly one
boundary its reason is returned; otherwise the ip is inside an interval
when the nearest boundary below is a lower bound and the nearest above
is an upper bound, and differing reasons panic. -/
def FindOp (s : State) (ip : Int) : FindRes :=
  match insideList s ip ip with
  | [f] => .ok f.2.reason
  | _ =>
    let belowN := nearestBelow s ip
    let aboveN := nearestAbove s ip
    if belowN.isLowerBound && aboveN.isUpperBound then
      if belowN.equalReason aboveN then .ok belowN.reason else .panicked
    else .notFound

/-- Outcome of UpdateReasonOf: batch committed, the IPNotFound error, or
one of the panic("database inconsistent") aborts. -/
inductive UpdRes where
  | committed
  | ipNotFound
  | panicked
deriving DecidableEq

/-- UpdateReasonOf's branch for a boundary hit at the queried ip: the
hit is a double, a lower or an upper boundary and both ends of its
interval are rewritten through fn; a neighbour with the wrong flag
panics.  The source rewrites the lower neighbour of an upper hit from
the reason of the boundary above the queried ip. -/
def updInside (s : State) (ip : Int) (fn : String → String) (f : Int × Rec) :
    UpdRes × List Op :=
  if (toBnd f).isDoubleBound then
    (.committed, [.put f.1 ⟨f.2.lower, f.2.upper, fn f.2.reason⟩])
  else if (toBnd f).isLowerBound then
    if (nearestAbove s ip).isUpperBound then
      (.committed,
        [Op.put f.1 ⟨f.2.lower, f.2.upper, fn f.2.reason⟩] ++
          putBnd ⟨(nearestAbove s ip).ip, (nearestAbove s ip).lower,
            (nearestAbove s ip).upper, fn (nearestAbove s ip).reason⟩)
    else (.panicked, [])
  else
    if (nearestBelow s ip).isLowerBound then
      (.committed,
        putBnd ⟨(nearestBelow s ip).ip, (nearestBelow s ip).lower,
          (nearestBelow s ip).upper, fn (nearestAbove s ip).reason⟩ ++
          [Op.put f.1 ⟨f.2.lower, f.2.upper, fn f.2.reason⟩])
    else (.panicked, [])

/-- UpdateReasonOf's branch with nothing at the queried ip: an enclosing
lower and upper pair with equal reasons is rewritten through fn,
differing reasons panic, anything else is IPNotFound. -/
def updOutside (s : State) (ip : Int) (fn : String → String) : UpdRes × List Op :=
  if (nearestBelow s ip).isLowerBound && (nearestAbove s ip).isUpperBound then
    if (nearestBelow s ip).equalReason (nearestAbove s ip) then
      (.committed,
        putBnd ⟨(nearestBelow s ip).ip, (nearestBelow s ip).lower,
          (nearestBelow s ip).upper, fn (nearestBelow s ip).reason⟩ ++
          putBnd ⟨(nearestAbove s ip).ip, (nearestAbove s ip).lower,
            (nearestAbove s ip).upper, fn (nearestAbove s ip).reason⟩)
    else (.panicked, [])
  else (.ipNotFound, [])

/-- UpdateReasonOf's decision and queued batch: the inside branch when
exactly one boundary sits at the queried ip, the outside branch
otherwise.  A panic or IPNotFound leaves nothing queued. -/
def updatePlan (s : State) (ip : Int) (fn : String → String) : UpdRes × List Op :=
  match insideList s ip ip with
  | [f] => updInside s ip fn f
  | _ => updOutside s ip fn

/-- UpdateReasonOf: run the vicinity query, queue the batch, execute it
(a panic aborts before the batch executes, an IPNotFound queues
nothing). -/
def UpdateReasonOf (s : State) (ip : Int) (fn : String → String) : UpdRes × State :=
  ((updatePlan s ip fn).1, applyBatch s (updatePlan s ip fn).2)

/-- A record with at least one flag set, as every stored boundary must
be. -/
def recFlagged (r : Rec) : Bool := r.lower || r.upper

/-- Every stored record has at least one flag set. -/
def allFlagged (s : State) : Bool := s.all fun e => recFlagged e.2

/-- The states reachable from the freshly initialised database (only the
sentinels stored) through the public mutating operations: Insert with a
parsed single IP, Insert with a parsed range, Remove and UpdateReasonOf.
Find does not mutate. -/
inductive Reachable : State → Prop where
  | init : Reachable []
  | insertSingle (s : State) (ip : Int) (x : String) :
      Reachable s → Reachable (InsertOp s (parsedSingle ip x))
  | insertRange (s : State) (lo hi : Int) (x : String) :
      lo ≤ hi → Reachable s → Reachable (InsertOp s (parsedRange lo hi x))
  | remove (s : State) (L H : Int) :
      L ≤ H → Reachable s → Reachable (RemoveOp s L H)
  | update (s : State) (ip : Int) (fn : String → String) :
      Reachable s → Reachable (UpdateReasonOf s ip fn).2

/-! ## The interval view of a consistent database

A state satisfying the data-model invariants (strict alternation of
starts and ends, matching reasons, unique IPs) is exactly the encoding
of a list of non-overlapping reason-tagged intervals.  A one-address
interval is stored as a single double boundary, a longer interval as a
lower boundary followed by an upper boundary with the same reason. -/

/-- One stored interval: first address, last address, reason. -/
structure Iv where
  l : Int
  h : Int
  reason : String
deriving DecidableEq

/-- The boundary records encoding one interval. -/
def encIv (iv : Iv) : State :=
  if iv.l = iv.h then [(iv.l, ⟨true, true, iv.reason⟩)]
  else [(iv.l, ⟨true, false, iv.reason⟩), (iv.h, ⟨false, true, iv.reason⟩)]

/-- The state encoding a list of intervals. -/
def toB (ivs : List Iv) : State := (ivs.map encIv).flatten

/-- Well-formed interval list starting at or after lo: ordered, possibly
adjacent but never overlapping, each with l ≤ h and a non-empty reason. -/
def ivChainFrom : Int → List Iv → Bool
  | _, [] => true
  | lo, iv :: t =>
    decide (lo ≤ iv.l) && decide (iv.l ≤ iv.h) && (iv.reason != "") &&
      ivChainFrom (iv.h + 1) t

/-- Well-formed interval list over the IPv4 number line. -/
def ivChain (ivs : List Iv) : Bool := ivChainFrom 0 ivs

/-- The reason of the first interval containing p, if any. -/
def findIval (ivs : List Iv) (p : Int) : Option String :=
  (ivs.find? (fun iv => decide (iv.l ≤ p) && decide (p ≤ iv.h))).map Iv.reason

/-- The range [L, H] touches none of the stored intervals. -/
def disjointB (ivs : List Iv) (L H : Int) : Bool :=
  ivs.all (fun iv => decide (iv.h < L) || decide (H < iv.l))

/-! ## The consistency check of spec property P3

Walking the non-sentinel boundaries in ascending order must produce a
strictly alternating start/end sequence, beginning with a start, ending
with an end, a double counting as a start immediately followed by an
end, and the end of each interval carrying the reason of its start. -/

/-- State machine of the alternation walk; the argument holds the reason
of the currently open interval, none when outside every interval. -/
def altFrom : Option String → State → Bool
  | none, [] => true
  | some _, [] => false
  | none, e :: t =>
    if e.2.lower && e.2.upper then altFrom none t
    else if e.2.lower then altFrom (some e.2.reason) t
    else false
  | some x, e :: t =>
    if !e.2.lower && e.2.upper && (e.2.reason == x) then altFrom none t
    else false

/-- Keys strictly ascending, as the sorted set enumerates them. -/
def sortedKeys : State → Bool
  | [] => true
  | [_] => true
  | a :: b :: t => decide (a.1 < b.1) && sortedKeys (b :: t)

/-- Spec invariant P3 for a state. -/
def consistentState (s : State) : Bool := sortedKeys s && altFrom none s

/-! ## The Find procedure as the specification words it (claim C1) -/

/-- The fallback branch shared by the claimed and the amended Find
procedure: a reason exactly when the nearest boundary below is a lower
bound and the nearest boundary above is an upper bound. -/
def claimFindOuter (s : State) (ip : Int) : FindRes :=
  if (nearestBelow s ip).isLowerBound && (nearestAbove s ip).isUpperBound then
    .ok (nearestBelow s ip).reason
  else .notFound

/-- Find as claim C1 words it: the inside boundary answers only when it
is a double boundary. -/
def claimFind (s : State) (ip : Int) : FindRes :=
  match insideList s ip ip with
  | [f] =>
    if f.2.lower && f.2.upper then .ok f.2.reason
    else claimFindOuter s ip
  | _ => claimFindOuter s ip

/-- Find as the code has it, with the panic branch removed: any single
inside boundary answers with its reason. -/
def amendedFind (s : State) (ip : Int) : FindRes :=
  match insideList s ip ip with
  | [f] => .ok f.2.reason
  | _ => claimFindOuter s ip

/-- The record stored at key k, if any. -/
def lookupRec : State → Int → Option Rec
  | [], _ => none
  | e :: t, k => if e.1 = k then some e.2 else lookupRec t k

/-- The put commands of a batch addressing key k. -/
def putsAt (b : List Op) (k : Int) : List Op :=
  b.filter fun op =>
    match op with
    | .put k' _ => decide (k' = k)
    | .del _ => false

/-- Whether a command addresses key k. -/
def opKeyTouches (op : Op) (k : Int) : Bool :=
  match op with
  | .put k' _ => decide (k' = k)
  | .del k' => decide (k' = k)

/-- The final effect of a batch on key k, the last command winning:
none when no command addresses k, some none when the last is a removal,
some (some r) when the last stores r. -/
def resolveOps : List Op → Int → Option (Option Rec)
  | [], _ => none
  | op :: t, k =>
    match resolveOps t k with
    | some v => some v
    | none =>
      match op with
      | .put k' r => if k' = k then some (some r) else none
      | .del k' => if k' = k then some none else none

/-! ## The range parser (iphelper.go Boundaries)

Boundaries tries three regular expressions in order — an IP-like run
followed by a mask, two IP-like runs joined by a dash, a bare IP-like
run — parses the matched text with the net package and finally forces
IPv4 through To4, reporting IPv6NotSupported when that fails.  Each
character class [0-9a-f:.] run must be 7 to 41 characters long, the
mask is 1 to 3 digits.  The matchers below scan for the leftmost match
exactly as the anchored-nowhere patterns do: a shorter prefix of a run
cannot match because the character after it is another class character,
never the required slash, dash or whitespace. -/

/-- The regex character class [0-9a-f:.]. -/
def isIPChar (c : Char) : Bool :=
  c.isDigit || ('a' ≤ c && c ≤ 'f') || c = ':' || c = '.'

/-- The regex whitespace class [\t\n\f\r ]. -/
def isSpaceGo (c : Char) : Bool :=
  c = '\t' || c = '\n' || c = '\x0c' || c = '\x0d' || c = ' '

/-- Length of the leading run of class characters. -/
def classRun : List Char → Nat
  | [] => 0
  | c :: t => if isIPChar c then classRun t + 1 else 0

/-- Length of the leading run of decimal digits. -/
def digitRun : List Char → Nat
  | [] => 0
  | c :: t => if c.isDigit then digitRun t + 1 else 0

/-- Leftmost match of ([0-9a-f:.]{7,41}/\d{1,3}): the address text and
the (up to three) mask digits. -/
def cidrFindAux : List Char → Option (List Char × List Char)
  | [] => none
  | c :: t =>
    let r := classRun (c :: t)
    if 7 ≤ r && r ≤ 41 then
      match (c :: t).drop r with
      | '/' :: ds =>
        let d := digitRun ds
        if 1 ≤ d then some ((c :: t).take r, ds.take (min d 3))
        else cidrFindAux t
      | _ => cidrFindAux t
    else cidrFindAux t

/-- Leftmost match of ([0-9a-f:.]{7,41})\s*-\s*([0-9a-f:.]{7,41}): the
two address texts. -/
def rangeFindAux : List Char → Option (List Char × List Char)
  | [] => none
  | c :: t =>
    let r := classRun (c :: t)
    if 7 ≤ r && r ≤ 41 then
      match ((c :: t).drop r).dropWhile isSpaceGo with
      | '-' :: u =>
        let u2 := u.dropWhile isSpaceGo
        let r2 := classRun u2
        if 7 ≤ r2 then some ((c :: t).take r, u2.take (min r2 41))
        else rangeFindAux t
      | _ => rangeFindAux t
    else rangeFindAux t

/-- Leftmost match of ([0-9a-f:.]{7,41}): the address text. -/
def ipFindAux : List Char → Option (List Char)
  | [] => none
  | c :: t =>
    let r := classRun (c :: t)
    if 7 ≤ r then some ((c :: t).take (min r 41))
    else ipFindAux t

/-- net.dtoi: leading decimal number, its value and the rest; fails
without a digit or when the accumulator reaches the 0xFFFFFF cap. -/
def dtoiGo : List Char → Nat → Bool → Option (Nat × List Char)
  | [], n, seen => if seen then some (n, []) else none
  | c :: t, n, seen =>
    if c.isDigit then
      let n2 := n * 10 + (c.toNat - '0'.toNat)
      if 0xFFFFFF ≤ n2 then none else dtoiGo t n2 true
    else if seen then some (n, c :: t) else none

/-- net.parseIPv4 (go 1.13): four dtoi fields of at most 255 joined by
dots, the whole text consumed; the 32-bit value. -/
def parseV4 (s : List Char) : Option Nat :=
  match dtoiGo s 0 false with
  | some (a, '.' :: r1) =>
    if a ≤ 255 then
      match dtoiGo r1 0 false with
      | some (b, '.' :: r2) =>
        if b ≤ 255 then
          match dtoiGo r2 0 false with
          | some (c, '.' :: r3) =>
            if c ≤ 255 then
              match dtoiGo r3 0 false with
              | some (d, []) => if d ≤ 255 then some (((a * 256 + b) * 256 + c) * 256 + d) else none
              | _ => none
            else none
          | _ => none
        else none
      | _ => none
    else none
  | _ => none

/-- net.xtoi: leading hexadecimal number, its value and the consumed
length; fails without a hex digit or at the 0xFFFFFF cap. -/
def xtoiGo : List Char → Nat → Nat → Option (Nat × Nat)
  | [], n, used => if used = 0 then none else some (n, used)
  | c :: t, n, used =>
    if c.isDigit then
      let n2 := n * 16 + (c.toNat - '0'.toNat)
      if 0xFFFFFF ≤ n2 then none else xtoiGo t n2 (used + 1)
    else if 'a' ≤ c && c ≤ 'f' then
      let n2 := n * 16 + (c.toNat - 'a'.toNat + 10)
      if 0xFFFFFF ≤ n2 then none else xtoiGo t n2 (used + 1)
    else if 'A' ≤ c && c ≤ 'F' then
      let n2 := n * 16 + (c.toNat - 'A'.toNat + 10)
      if 0xFFFFFF ≤ n2 then none else xtoiGo t n2 (used + 1)
    else if used = 0 then none else some (n, used)

/-- The four octets of a 32-bit value. -/
def v4Bytes (n : Nat) : List Nat :=
  [n / 2 ^ 24 % 256, n / 2 ^ 16 % 256, n / 2 ^ 8 % 256, n % 256]

/-- The loop of net.parseIPv6 (go 1.13): consumes hex groups separated
by colons, at most one double colon (recorded as a byte position), an
optional embedded IPv4 tail; returns the collected bytes and the
double-colon position. -/
def parseV6Loop : Nat → List Nat → Option Nat → List Char → Option (List Nat × Option Nat)
  | 0, _, _, _ => none
  | fuel + 1, bytes, ell, s =>
    if bytes.length < 16 then
      match xtoiGo s 0 0 with
      | none => none
      | some (n, c) =>
        if 0xFFFF < n then none
        else if s.drop c |>.head? |>.elim false (fun ch => ch = '.') then
          if ell = none && bytes.length ≠ 12 then none
          else if 16 < bytes.length + 4 then none
          else
            match parseV4 s with
            | none => none
            | some v4 => some (bytes ++ v4Bytes v4, ell)
        else
          match s.drop c with
          | [] => some (bytes ++ [n / 256, n % 256], ell)
          | ':' :: rest2 =>
            if rest2 = [] then none
            else
              match rest2 with
              | ':' :: rest3 =>
                if ell ≠ none then none
                else if rest3 = [] then some (bytes ++ [n / 256, n % 256], some (bytes.length + 2))
                else parseV6Loop fuel (bytes ++ [n / 256, n % 256]) (some (bytes.length + 2)) rest3
              | _ => parseV6Loop fuel (bytes ++ [n / 256, n % 256]) ell rest2
          | _ => none
    else if s = [] then some (bytes, ell) else none

/-- net.parseIPv6 (go 1.13): the 128-bit value, expanding the double
colon with zero bytes. -/
def parseV6 (s : List Char) : Option Nat :=
  let start :=
    match s with
    | ':' :: ':' :: rest => (some (0 : Nat), rest)
    | _ => (none, s)
  match start with
  | (some _, []) => some 0
  | (ell0, s1) =>
    match parseV6Loop (s1.length + 1) [] ell0 s1 with
    | none => none
    | some (bytes, ell) =>
      if bytes.length < 16 then
        match ell with
        | none => none
        | some e =>
          let full := bytes.take e ++ List.replicate (16 - bytes.length) 0 ++ bytes.drop e
          some (full.foldl (fun a b => a * 256 + b) 0)
      else
        match ell with
        | some _ => none
        | none => some (bytes.foldl (fun a b => a * 256 + b) 0)

/-- A parsed net.IP: a 4-byte IPv4 or a 16-byte IPv6. -/
inductive GoIP where
  | v4 (n : Nat)
  | v6 (n : Nat)
deriving DecidableEq

/-- net.ParseIP: the first dot or colon decides the family. -/
def goParseIP (s : List Char) : Option GoIP :=
  match s.find? (fun c => c = '.' || c = ':') with
  | some '.' => (parseV4 s).map GoIP.v4
  | some ':' => (parseV6 s).map GoIP.v6
  | _ => none

/-- IP.To4: an IPv4 stays, an IPv6 converts exactly when it is
IPv4-mapped (::ffff:a.b.c.d). -/
def goTo4 : GoIP → Option Nat
  | .v4 n => some n
  | .v6 n => if n / 2 ^ 32 = 0xFFFF then some (n % 2 ^ 32) else none

/-- IPToInt over the textual form net.ParseIP returns: ParseIP yields
the 16-byte representation, an IPv4 as the IPv4-mapped value, so the
range comparison in Boundaries compares these integers. -/
def cmpVal : GoIP → Nat
  | .v4 n => 0xFFFF * 2 ^ 32 + n
  | .v6 n => n

/-- net.ParseCIDR followed by AddressRange: the address parses as IPv4
or else IPv6, the mask digits must all be consumed and fit the family
bit width; the network address is the masked address and the broadcast
fills the host bits (clearing the low bits is the bytewise AND with the
prefix mask, and since they are then zero the OR with the host bits is
the addition). -/
def goParseCIDR (addr mask : List Char) : Option (Bool × Nat × Nat) :=
  match dtoiGo mask 0 false with
  | some (m, []) =>
    match parseV4 addr with
    | some a =>
      if m ≤ 32 then
        let first := a / 2 ^ (32 - m) * 2 ^ (32 - m)
        some (false, first, first + (2 ^ (32 - m) - 1))
      else none
    | none =>
      match parseV6 addr with
      | some a6 =>
        if m ≤ 128 then
          let first := a6 / 2 ^ (128 - m) * 2 ^ (128 - m)
          some (true, first, first + (2 ^ (128 - m) - 1))
        else none
      | none => none
  | _ => none

/-- The outcomes of Boundaries relevant to the claims. -/
inductive PErr where
  | invalidRange
  | ipv6NotSupported
deriving DecidableEq

deriving instance DecidableEq for Except

/-- iphelper.go Boundaries over the character list: the CIDR pattern,
then the dashed range pattern, then the bare IP pattern; parse errors
are InvalidRange, the final To4 failure is IPv6NotSupported. -/
def boundariesChars (cs : List Char) : Except PErr (Nat × Nat) :=
  match cidrFindAux cs with
  | some (addr, mask) =>
    match goParseCIDR addr mask with
    | none => .error .invalidRange
    | some (isV6, first, last) =>
      match goTo4 (if isV6 then .v6 first else .v4 first),
          goTo4 (if isV6 then .v6 last else .v4 last) with
      | some l, some h => .ok (l, h)
      | _, _ => .error .ipv6NotSupported
  | none =>
    match rangeFindAux cs with
    | some (a, b) =>
      match goParseIP a, goParseIP b with
      | some ipa, some ipb =>
        if cmpVal ipb < cmpVal ipa then .error .invalidRange
        else
          match goTo4 ipa, goTo4 ipb with
          | some l, some h => .ok (l, h)
          | _, _ => .error .ipv6NotSupported
      | _, _ => .error .invalidRange
    | none =>
      match ipFindAux cs with
      | some a =>
        match goParseIP a with
        | some ip =>
          match goTo4 ip with
          | some l => .ok (l, l)
          | none => .error .ipv6NotSupported
        | none => .error .invalidRange
      | none => .error .invalidRange

/-- Boundaries on an input string. -/
def goBoundaries (s : String) : Except PErr (Nat × Nat) :=
  boundariesChars s.data

/-- Every run of class characters in the text is shorter than 7. -/
def noRun7 : List Char → Bool
  | [] => true
  | c :: t => decide (classRun (c :: t) < 7) && noRun7 t

/-! ## Concrete scenario states used by the counterexamples -/

/-- A single stored interval from 100 to 130 with reason "A". -/
def exIval : State := toB [⟨100, 130, "A"⟩]

/-- A single stored one-address interval with reason "X". -/
def exPoint : State := toB [⟨5, 5, "X"⟩]

/-- An inconsistent store: the lower bound at 10 and the upper bound at
20 delimit one interval but carry different reasons. -/
def exBadReasons : State := [(10, ⟨true, false, "A"⟩), (20, ⟨false, true, "B"⟩)]

/-- A single stored interval from 100 to 200 with reason "x". -/
def exWide : State := toB [⟨100, 200, "x"⟩]

/-- A single stored one-address interval at 100 with reason "x". -/
def exDouble : State := toB [⟨100, 100, "x"⟩]

/-- claim C2: after every Insert or Remove on an invariant-satisfying
state the non-sentinel boundaries still alternate strictly between
starts and ends with matching reasons.  The code violates this: on the
single interval 100..130 with reason "A", Remove of 110..120 writes the
surviving tail cut at 121 as an upper bound (Remove builds its above cut
with SetUpperBound), so the walk meets two consecutive ends. -/
theorem c2_remove_breaks_alternation :
    consistentState exIval = true ∧
      RemoveOp exIval 110 120 =
        [(100, ⟨true, false, "A"⟩), (109, ⟨false, true, "A"⟩),
          (121, ⟨false, true, "A"⟩), (130, ⟨false, true, "A"⟩)] ∧
      consistentState (RemoveOp exIval 110 120) = false := by
  refine ⟨by decide, by decide, by decide⟩

/-- claim C3: when Remove cuts a range whose upper end lies strictly
inside an existing interval, the claim says the boundary written at
H + 1 carries lower = true so the surviving tail restarts there.  The
code writes it with lower = false and upper = true: on the interval
100..130 with reason "A", Remove of 110..120 meets the single upper
bound at 130 (distinct from 121) and stores at 121 an upper bound. -/
theorem c3_remove_tail_cut_is_upper :
    (nearestAbove exIval 120).isUpperBound = true ∧
      (nearestAbove exIval 120).ip = some 130 ∧
      lookupRec (RemoveOp exIval 110 120) 121 = some ⟨false, true, "A"⟩ := by
  refine ⟨by decide, by decide, by decide⟩

/-- claim C5: on a store where the queried ip lies between a lower bound
and an upper bound with differing reasons, the claim says Find and
UpdateReasonOf fail with the DatabaseInconsistent error and must not
abort the process.  The code panics in both: Find reaches
panic("reasons inconsistent") and UpdateReasonOf reaches
panic("database reasons inconsistent"). -/
theorem c5_inconsistency_panics :
    FindOp exBadReasons 15 = .panicked ∧
      (UpdateReasonOf exBadReasons 15 (fun r => r)).1 = .panicked := by
  refine ⟨by decide, by decide⟩

/-- claim C6: Insert and Remove are claimed idempotent.  Both fail on
the code.  Removing 110..120 from the interval 100..130 leaves an upper
bound at 121 (the C3 slip); a second identical Remove finds that upper
bound exactly at H + 1, cannot cut, and promotes it to a double bound,
changing the state.  Inserting 6..10 with reason "X" next to the
one-address interval at 5 with reason "X" demotes the double at 5 to a
lower bound yet still writes a second lower bound at 6; the repeated
Insert then merges with the now-single lower bound at 5 and drops the
boundary at 6, changing the state. -/
theorem c6_not_idempotent :
    RemoveOp (RemoveOp exIval 110 120) 110 120 ≠ RemoveOp exIval 110 120 ∧
      InsertOp (InsertOp exPoint (parsedRange 6 10 "X")) (parsedRange 6 10 "X") ≠
        InsertOp exPoint (parsedRange 6 10 "X") := by
  refine ⟨by decide, by decide⟩

/-- claim C1 counterexample: on the invariant-satisfying store holding
the single interval 10..20 with reason "A", querying the interval start
10 puts the single lower bound at 10 into the inside list; the code
returns its reason "A", while the claimed procedure skips any inside
boundary that is not a double and then finds the boundary below 10 not
to be a lower bound, answering IPNotFound — contradicting both the
claimed branch order and the claimed reason-iff-inside equivalence. -/
theorem c1_counterexample :
    ivChain [⟨10, 20, "A"⟩] = true ∧
      FindOp (toB [⟨10, 20, "A"⟩]) 10 = .ok "A" ∧
      claimFind (toB [⟨10, 20, "A"⟩]) 10 = .notFound := by
  refine ⟨by decide, by decide, by decide⟩

/-! ## Batch bookkeeping lemmas -/

theorem mem_of_getLast?_eq {α : Type} {l : List α} {a : α} (h : l.getLast? = some a) :
    a ∈ l := by
  induction l with
  | nil => simp at h
  | cons x t ih =>
    cases t with
    | nil => simp [List.getLast?] at h; simp [h]
    | cons y u =>
      rw [List.getLast?_cons_cons] at h
      exact List.mem_cons_of_mem _ (ih h)

theorem mem_of_head?_eq {α : Type} {l : List α} {a : α} (h : l.head? = some a) :
    a ∈ l := by
  cases l with
  | nil => simp at h
  | cons x t => simp at h; simp [h]

theorem nearestBelow_ip_lt {s : State} {p k : Int} (h : (nearestBelow s p).ip = some k) :
    k < p := by
  unfold nearestBelow at h
  cases hg : (s.filter fun e => decide (e.1 < p)).getLast? with
  | none => rw [hg] at h; simp [ninfBnd] at h
  | some e =>
    rw [hg] at h
    simp only [toBnd, Option.some.injEq] at h
    have hm := mem_of_getLast?_eq hg
    have hp := List.of_mem_filter hm
    rw [← h]
    exact of_decide_eq_true hp

theorem nearestAbove_ip_gt {s : State} {p k : Int} (h : (nearestAbove s p).ip = some k) :
    p < k := by
  unfold nearestAbove at h
  cases hg : (s.filter fun e => decide (p < e.1)).head? with
  | none => rw [hg] at h; simp [pinfBnd] at h
  | some e =>
    rw [hg] at h
    simp only [toBnd, Option.some.injEq] at h
    have hm := mem_of_head?_eq hg
    have hp := List.of_mem_filter hm
    rw [← h]
    exact of_decide_eq_true hp

theorem putsAt_append (a b : List Op) (k : Int) :
    putsAt (a ++ b) k = putsAt a k ++ putsAt b k := by
  simp [putsAt, List.filter_append]

theorem putsAt_nil_of {l : List Op} {k : Int}
    (h : ∀ k' r, Op.put k' r ∈ l → k' ≠ k) : putsAt l k = [] := by
  induction l with
  | nil => rfl
  | cons op t ih =>
    have ht : putsAt t k = [] :=
      ih fun k' r hm => h k' r (List.mem_cons_of_mem _ hm)
    cases op with
    | del k' => simpa [putsAt, List.filter_cons] using ht
    | put k' r =>
      have : k' ≠ k := h k' r (List.mem_cons_self _ _)
      simpa [putsAt, List.filter_cons, this] using ht

theorem resolveOps_append (a b : List Op) (k : Int) :
    resolveOps (a ++ b) k =
      match resolveOps b k with
      | some v => some v
      | none => resolveOps a k := by
  induction a with
  | nil =>
    cases hb : resolveOps b k <;> simp [resolveOps, hb]
  | cons op t ih =>
    cases hb : resolveOps b k <;>
      cases ht : resolveOps t k <;>
        simp [resolveOps, List.cons_append, ih, hb, ht]

theorem resolveOps_nil_of {l : List Op} {k : Int}
    (h : ∀ op ∈ l, opKeyTouches op k = false) : resolveOps l k = none := by
  induction l with
  | nil => rfl
  | cons op t ih =>
    have ht : resolveOps t k = none :=
      ih fun o hm => h o (List.mem_cons_of_mem _ hm)
    have hop := h op (List.mem_cons_self _ _)
    cases op with
    | del k' =>
      simp only [opKeyTouches, decide_eq_false_iff_not] at hop
      simp [resolveOps, ht, hop]
    | put k' r =>
      simp only [opKeyTouches, decide_eq_false_iff_not] at hop
      simp [resolveOps, ht, hop]

theorem lookupRec_putRec (k : Int) (r : Rec) (s : State) (k' : Int) :
    lookupRec (putRec k r s) k' = if k = k' then some r else lookupRec s k' := by
  induction s with
  | nil => simp [putRec, lookupRec]
  | cons e t ih =>
    by_cases h1 : k < e.1
    · simp only [putRec, if_pos h1, lookupRec]
    · by_cases h2 : k = e.1
      · simp only [putRec, if_neg h1, if_pos h2, lookupRec]
        by_cases h3 : k = k'
        · simp [h3]
        · have : e.1 ≠ k' := by omega
          simp [h3, this, h2]
      · simp only [putRec, if_neg h1, if_neg h2, lookupRec]
        by_cases h3 : e.1 = k'
        · have : ¬(k = k') := by omega
          simp [h3, this]
        · simp [h3, ih]

theorem lookupRec_delKey (s : State) (k k' : Int) :
    lookupRec (s.filter fun e => decide (e.1 ≠ k)) k' =
      if k = k' then none else lookupRec s k' := by
  induction s with
  | nil => simp [lookupRec]
  | cons e t ih =>
    by_cases h1 : e.1 = k
    · have hp : decide (e.1 ≠ k) = false := by simp [h1]
      rw [List.filter_cons, hp]
      simp only [Bool.false_eq_true, if_false]
      rw [ih]
      simp only [lookupRec]
      by_cases h2 : k = k'
      · rw [if_pos h2, if_pos h2]
      · have he' : ¬(e.1 = k') := by omega
        rw [if_neg h2, if_neg h2, if_neg he']
    · have hp : decide (e.1 ≠ k) = true := by simp [h1]
      rw [List.filter_cons, hp]
      simp only [if_true]
      simp only [lookupRec]
      by_cases h3 : e.1 = k'
      · have h2 : ¬(k = k') := by omega
        rw [if_pos h3, if_neg h2, if_pos h3]
      · rw [if_neg h3, ih]
        by_cases h2 : k = k'
        · rw [if_pos h2, if_pos h2]
        · rw [if_neg h2, if_neg h2, if_neg h3]

theorem lookupRec_applyBatch (ops : List Op) (s : State) (k : Int) :
    lookupRec (applyBatch s ops) k = (resolveOps ops k).getD (lookupRec s k) := by
  induction ops generalizing s with
  | nil => simp [applyBatch, resolveOps]
  | cons op t ih =>
    have hstep : applyBatch s (op :: t) = applyBatch (applyOp s op) t := by
      simp [applyBatch]
    rw [hstep, ih]
    cases hres : resolveOps t k with
    | some v => simp [resolveOps, hres]
    | none =>
      cases op with
      | put k' r =>
        simp only [resolveOps, hres, applyOp]
        rw [lookupRec_putRec]
        by_cases h2 : k' = k
        · simp [h2]
        · simp [h2]
      | del k' =>
        simp only [resolveOps, hres, applyOp]
        rw [lookupRec_delKey]
        by_cases h2 : k' = k
        · simp [h2]
        · simp [h2]

theorem equalIP_right {a b : Bnd} {y : Int} (h : a.equalIP b = true) (hb : b.ip = some y) :
    a.ip = some y := by
  unfold Bnd.equalIP at h
  rw [hb] at h
  revert h
  cases hA : a.ip with
  | none =>
    intro h
    exact Bool.noConfusion h
  | some x =>
    intro h
    have h2 : (x == y) = true := h
    simp only [beq_iff_eq] at h2
    rw [h2]

theorem putBnd_put_key {b : Bnd} {k : Int} {r : Rec} (h : Op.put k r ∈ putBnd b) :
    b.ip = some k := by
  unfold putBnd at h
  revert h
  cases hb : b.ip with
  | none =>
    intro h
    simp at h
  | some x =>
    intro h
    simp at h
    rw [h.1]

theorem putBnd_no_del {b : Bnd} {k : Int} (h : Op.del k ∈ putBnd b) : False := by
  unfold putBnd at h
  revert h
  cases hb : b.ip with
  | none => intro h; simp at h
  | some x => intro h; simp at h

theorem belowPlan_put_key {bN cut lowB : Bnd} {c : Int} {k : Int} {r : Rec}
    (hc : cut.ip = some c) (h : Op.put k r ∈ (belowPlan bN cut lowB).1) : k = c := by
  unfold belowPlan at h
  cases hL : bN.isLowerBound with
  | true =>
    cases hIp : bN.equalIP cut with
    | false =>
      cases hR : bN.equalReason lowB with
      | false =>
        simp only [hL, hIp, hR] at h
        simp at h
        have := putBnd_put_key (show Op.put k r ∈ putBnd cut from h)
        rw [hc] at this
        exact (Option.some.inj this).symm
      | true =>
        simp only [hL, hIp, hR] at h
        simp at h
    | true =>
      cases hR : bN.equalReason lowB with
      | false =>
        simp only [hL, hIp, hR] at h
        simp at h
        have h4 := putBnd_put_key (show Op.put k r ∈ putBnd bN.setDoubleBound from h)
        have h3 := equalIP_right hIp hc
        simp only [Bnd.setDoubleBound] at h4
        rw [h3] at h4
        exact (Option.some.inj h4).symm
      | true =>
        simp only [hL, hIp, hR] at h
        simp at h
  | false =>
    cases hD : bN.isDoubleBound with
    | false =>
      simp only [hL, hD] at h
      simp at h
    | true =>
      cases hIp : bN.equalIP cut with
      | false =>
        simp only [hL, hD, hIp] at h
        simp at h
      | true =>
        cases hR : bN.equalReason lowB with
        | false =>
          simp only [hL, hD, hIp, hR] at h
          simp at h
        | true =>
          simp only [hL, hD, hIp, hR] at h
          simp at h
          have h4 := putBnd_put_key (show Op.put k r ∈ putBnd bN.setLowerBound from h)
          have h3 := equalIP_right hIp hc
          simp only [Bnd.setLowerBound] at h4
          rw [h3] at h4
          exact (Option.some.inj h4).symm

theorem abovePlan_put_key {aN cut highB : Bnd} {c : Int} {k : Int} {r : Rec}
    (hc : cut.ip = some c) (h : Op.put k r ∈ (abovePlan aN cut highB).1) : k = c := by
  unfold abovePlan at h
  cases hU : aN.isUpperBound with
  | true =>
    cases hIp : aN.equalIP cut with
    | false =>
      cases hR : aN.equalReason highB with
      | false =>
        simp only [hU, hIp, hR] at h
        simp at h
        have := putBnd_put_key (show Op.put k r ∈ putBnd cut from h)
        rw [hc] at this
        exact (Option.some.inj this).symm
      | true =>
        simp only [hU, hIp, hR] at h
        simp at h
    | true =>
      cases hR : aN.equalReason highB with
      | false =>
        simp only [hU, hIp, hR] at h
        simp at h
        have h4 := putBnd_put_key (show Op.put k r ∈ putBnd aN.setDoubleBound from h)
        have h3 := equalIP_right hIp hc
        simp only [Bnd.setDoubleBound] at h4
        rw [h3] at h4
        exact (Option.some.inj h4).symm
      | true =>
        simp only [hU, hIp, hR] at h
        simp at h
  | false =>
    cases hD : aN.isDoubleBound with
    | false =>
      simp only [hU, hD] at h
      simp at h
    | true =>
      cases hIp : aN.equalIP cut with
      | false =>
        simp only [hU, hD, hIp] at h
        simp at h
      | true =>
        cases hR : aN.equalReason highB with
        | false =>
          simp only [hU, hD, hIp, hR] at h
          simp at h
        | true =>
          simp only [hU, hD, hIp, hR] at h
          simp at h
          have h4 := putBnd_put_key (show Op.put k r ∈ putBnd aN.setUpperBound from h)
          have h3 := equalIP_right hIp hc
          simp only [Bnd.setUpperBound] at h4
          rw [h3] at h4
          exact (Option.some.inj h4).symm

theorem bpOf_put_key {s : State} {lowB : Bnd} {k : Int} {r : Rec}
    (h : Op.put k r ∈ (bpOf s lowB).1) : k = ipKey lowB - 1 :=
  @belowPlan_put_key _ (belowCutOf s (ipKey lowB)) _ _ _ _ rfl h

theorem apOf_put_key {s : State} {highB : Bnd} {k : Int} {r : Rec}
    (h : Op.put k r ∈ (apOf s highB).1) : k = ipKey highB + 1 :=
  @abovePlan_put_key _ (aboveCutOf s (ipKey highB)) _ _ _ _ rfl h

theorem belowPlan_no_del {bN cut lowB : Bnd} {k : Int}
    (h : Op.del k ∈ (belowPlan bN cut lowB).1) : False := by
  unfold belowPlan at h
  cases hL : bN.isLowerBound <;>
    cases hD : bN.isDoubleBound <;>
      cases hIp : bN.equalIP cut <;>
        cases hR : bN.equalReason lowB <;>
          simp only [hL, hD, hIp, hR] at h <;>
            simp at h <;>
              exact putBnd_no_del h

theorem abovePlan_no_del {aN cut highB : Bnd} {k : Int}
    (h : Op.del k ∈ (abovePlan aN cut highB).1) : False := by
  unfold abovePlan at h
  cases hU : aN.isUpperBound <;>
    cases hD : aN.isDoubleBound <;>
      cases hIp : aN.equalIP cut <;>
        cases hR : aN.equalReason highB <;>
          simp only [hU, hD, hIp, hR] at h <;>
            simp at h <;>
              exact putBnd_no_del h

theorem endPuts_no_del {lowB highB : Bnd} {il iu : Bool} {k : Int}
    (h : Op.del k ∈ endPuts lowB highB il iu) : False := by
  unfold endPuts at h
  cases hE : lowB.equalIP highB <;>
    cases il <;>
      cases iu <;>
        simp only [hE] at h <;>
          simp at h <;>
            first
              | exact putBnd_no_del h
              | (rcases h with h | h
                 · exact putBnd_no_del h
                 · exact putBnd_no_del h)

theorem endPuts_noInsLow_put {lowB highB : Bnd} {iu : Bool} {k : Int} {r : Rec}
    (h : Op.put k r ∈ endPuts lowB highB false iu) : highB.ip = some k := by
  unfold endPuts at h
  cases iu with
  | false =>
    simp at h
  | true =>
    simp at h
    exact putBnd_put_key h

theorem endPuts_put_key {lowB highB : Bnd} {il iu : Bool} {k : Int} {r : Rec}
    (h : Op.put k r ∈ endPuts lowB highB il iu) :
    lowB.ip = some k ∨ highB.ip = some k := by
  unfold endPuts at h
  cases hE : lowB.equalIP highB <;>
    cases il <;>
      cases iu <;>
        simp only [hE] at h <;>
          simp at h
  case true.true.true =>
    left
    have := putBnd_put_key (show Op.put k r ∈ putBnd lowB.setDoubleBound from h)
    simpa [Bnd.setDoubleBound] using this
  all_goals
    first
      | (rcases h with h | h
         · exact Or.inl (putBnd_put_key h)
         · exact Or.inr (putBnd_put_key h))
      | exact Or.inl (putBnd_put_key h)
      | exact Or.inr (putBnd_put_key h)

theorem no_put_in_dels {l : State} {k : Int} {r : Rec}
    (h : Op.put k r ∈ l.map fun e => Op.del e.1) : False := by
  rcases List.mem_map.1 h with ⟨e, _, he⟩
  exact Op.noConfusion he

/-- claim C8: with L = H and both insertion flags surviving the case
analysis, the batch writes exactly one record at L, a double boundary
with the new reason, instead of separate lower and upper records; and
the E4 scenario — inserting 188.0.0.0 twice with reasons "P" then "Q"
from an empty store — leaves exactly one double boundary at 188.0.0.0
(integer 3154116608) carrying "Q". -/
theorem c8_single_ip_double_record :
    (∀ (s : State) (L : Int) (x : String) (lowB highB : Bnd),
        lowB.ip = some L → highB.ip = some L → lowB.reason = x →
        (bpOf s lowB).2 = true → (apOf s highB).2 = true →
        putsAt (insertBatch s lowB highB) L = [Op.put L ⟨true, true, x⟩]) ∧
      InsertOp (InsertOp [] (parsedSingle 3154116608 "P")) (parsedSingle 3154116608 "Q") =
        [(3154116608, ⟨true, true, "Q"⟩)] := by
  constructor
  · intro s L x lowB highB hl hh hr hbp hap
    have hkl : ipKey lowB = L := by simp [ipKey, hl]
    have hkh : ipKey highB = L := by simp [ipKey, hh]
    unfold insertBatch
    rw [putsAt_append, putsAt_append, putsAt_append]
    have h1 : putsAt ((insideList s (ipKey lowB) (ipKey highB)).map fun e => Op.del e.1) L = [] :=
      putsAt_nil_of fun k' r hm => (no_put_in_dels hm).elim
    have h2 : putsAt (bpOf s lowB).1 L = [] :=
      putsAt_nil_of fun k' r hm => by
        have := bpOf_put_key hm
        omega
    have h3 : putsAt (apOf s highB).1 L = [] :=
      putsAt_nil_of fun k' r hm => by
        have := apOf_put_key hm
        omega
    rw [h1, h2, h3, hbp, hap]
    have heq : lowB.equalIP highB = true := by
      simp [Bnd.equalIP, hl, hh]
    simp [endPuts, heq, Bnd.setDoubleBound, putBnd, hl, putsAt, Bnd.toRec, hr]
  · decide

/-- claim C8 witness: inserting the single address 7 with reason "R"
into the empty store passes through the both-flags case and writes the
one double record. -/
theorem c8_witness :
    putsAt (insertBatch [] (parsedSingle 7 "R").1 (parsedSingle 7 "R").2) 7 =
      [Op.put 7 ⟨true, true, "R"⟩] :=
  c8_single_ip_double_record.1 [] 7 "R" _ _ rfl rfl rfl (by decide) (by decide)

/-- claim C4 counterexample: the claim quantifies over every Insert of a
range [L, H], which includes L = H.  On the store holding the interval
100..200 with reason "x" (a consistent state storing the single lower
bound at 100 and the single upper bound at 200), the single-IP Insert of
200 with the same reason "x" satisfies the merge-left hypothesis — the
nearest boundary strictly below 200 is the single lower bound at 100,
its ip is not 199, its reason equals the new reason — so per the claim
nothing but a merge may happen.  Yet the surviving upper-bound insertion
(part_000 lines 628-631) writes the parsed boundary at L = 200, which a
single-IP parse flags as a double: the batch's only write at 200 stores
⟨lower = true, upper = true⟩ where ⟨false, true⟩ stood, a newly inserted
lower flag at L, and the resulting state is no interval encoding at all
— the alternation invariant P3 fails, so the insert did not merge. -/
theorem c4_counterexample :
    consistentState exWide = true ∧
      nearestBelow exWide 200 = ⟨some 100, true, false, "x"⟩ ∧
      ((100 : Int) = 200 - 1 → False) ∧
      lookupRec exWide 200 = some ⟨false, true, "x"⟩ ∧
      putsAt (insertBatch exWide (parsedSingle 200 "x").1 (parsedSingle 200 "x").2) 200 =
        [Op.put 200 ⟨true, true, "x"⟩] ∧
      lookupRec (InsertOp exWide (parsedSingle 200 "x")) 200 = some ⟨true, true, "x"⟩ ∧
      consistentState (InsertOp exWide (parsedSingle 200 "x")) = false := by
  refine ⟨by decide, by decide, by decide, by decide, by decide, by decide, by decide⟩

/-- claim C4 as amended, for every state and every Insert of [L, H] with
a non-empty reason x (lowB and highB are the two parsed boundaries, so
the statement covers the range parse and the single-IP parse alike).
Merge clause (part_000 lines 565-575): when the nearest boundary
strictly below L is a single lower bound ⟨some b, true, false, x⟩ with
b ≠ L - 1 and the new reason, the below side queues nothing and clears
insertLowerBound (bpOf = ([], false)), the whole batch writes no record
at L - 1 (the claimed "cut boundary at L - 1 is not inserted"), and,
provided L ≠ H, the whole batch writes no record at L (the claimed "new
lower bound at L is not inserted") — the L = H exception is the
correction, exhibited by the counterexample: there the surviving
upper-bound insertion still writes the double-flagged parsed boundary
at L.  Demote clause (part_000 lines 586-590): when that nearest
boundary is a double boundary exactly at L - 1 with the same reason,
the state after the Insert stores at L - 1 the record with the upper
flag dropped — the single lower bound of the merged larger interval. -/
theorem c4_merge_and_demote (s : State) (L H : Int) (x : String) (lowB highB : Bnd)
    (hl : lowB.ip = some L) (hh : highB.ip = some H) (hLH : L ≤ H)
    (hr : lowB.reason = x) (hx : x ≠ "") :
    (∀ b, nearestBelow s L = ⟨some b, true, false, x⟩ → b ≠ L - 1 →
        bpOf s lowB = ([], false) ∧
          putsAt (insertBatch s lowB highB) (L - 1) = [] ∧
          (L ≠ H → putsAt (insertBatch s lowB highB) L = [])) ∧
      (∀ p, nearestBelow s L = ⟨some (L - 1), true, true, p⟩ → p = x →
        lookupRec (InsertOp s (lowB, highB)) (L - 1) = some ⟨true, false, p⟩) := by
  have hkl : ipKey lowB = L := by simp [ipKey, hl]
  have hkh : ipKey highB = H := by simp [ipKey, hh]
  constructor
  · intro b hnb hbne
    have hbp : bpOf s lowB = ([], false) := by
      unfold bpOf
      rw [hkl, hnb]
      have h1 : Bnd.isLowerBound ⟨some b, true, false, x⟩ = true := rfl
      have h2 : Bnd.equalIP ⟨some b, true, false, x⟩ (belowCutOf s L) = false := by
        simp only [Bnd.equalIP, belowCutOf]
        simp [hbne]
      have h3 : Bnd.equalReason ⟨some b, true, false, x⟩ lowB = true := by
        simp [Bnd.equalReason, Bnd.hasReason, hr, hx]
      unfold belowPlan
      rw [h1, h2]
      simp [h3]
    refine ⟨hbp, ?_, ?_⟩
    · unfold insertBatch
      rw [putsAt_append, putsAt_append, putsAt_append]
      have h1 : putsAt ((insideList s (ipKey lowB) (ipKey highB)).map fun e => Op.del e.1) (L - 1) = [] :=
        putsAt_nil_of fun k' r hm => (no_put_in_dels hm).elim
      have h2 : putsAt (bpOf s lowB).1 (L - 1) = [] := by
        rw [hbp]
        rfl
      have h3 : putsAt (apOf s highB).1 (L - 1) = [] :=
        putsAt_nil_of fun k' r hm => by
          have := apOf_put_key hm
          omega
      have h4 : putsAt (endPuts lowB highB (bpOf s lowB).2 (apOf s highB).2) (L - 1) = [] :=
        putsAt_nil_of fun k' r hm => by
          rcases endPuts_put_key hm with hc | hc
          · rw [hl] at hc
            have : L = k' := Option.some.inj hc
            omega
          · rw [hh] at hc
            have : H = k' := Option.some.inj hc
            omega
      rw [h1, h2, h3, h4]
      rfl
    · intro hne
      unfold insertBatch
      rw [putsAt_append, putsAt_append, putsAt_append]
      have h1 : putsAt ((insideList s (ipKey lowB) (ipKey highB)).map fun e => Op.del e.1) L = [] :=
        putsAt_nil_of fun k' r hm => (no_put_in_dels hm).elim
      have h2 : putsAt (bpOf s lowB).1 L = [] := by
        rw [hbp]
        rfl
      have h3 : putsAt (apOf s highB).1 L = [] :=
        putsAt_nil_of fun k' r hm => by
          have := apOf_put_key hm
          omega
      have h4 : putsAt (endPuts lowB highB (bpOf s lowB).2 (apOf s highB).2) L = [] := by
        have hil : (bpOf s lowB).2 = false := by rw [hbp]
        rw [hil]
        refine putsAt_nil_of fun k' r hm => ?_
        have hk := endPuts_noInsLow_put hm
        rw [hh] at hk
        have hk2 : H = k' := Option.some.inj hk
        omega
      rw [h1, h2, h3, h4]
      rfl
  · intro p hnb hpx
    have hbp : bpOf s lowB = ([Op.put (L - 1) ⟨true, false, p⟩], true) := by
      unfold bpOf
      rw [hkl, hnb]
      have h1 : Bnd.isLowerBound ⟨some (L - 1), true, true, p⟩ = false := rfl
      have h2 : Bnd.isDoubleBound ⟨some (L - 1), true, true, p⟩ = true := rfl
      have h3 : Bnd.equalIP ⟨some (L - 1), true, true, p⟩ (belowCutOf s L) = true := by
        simp [Bnd.equalIP, belowCutOf]
      have h4 : Bnd.equalReason ⟨some (L - 1), true, true, p⟩ lowB = true := by
        simp [Bnd.equalReason, Bnd.hasReason, hr, hx, hpx]
      unfold belowPlan
      rw [h1, h2, h3, h4]
      simp [putBnd, Bnd.setLowerBound, Bnd.toRec]
    have hgoal : lookupRec (applyBatch s (insertBatch s lowB highB)) (L - 1) = some ⟨true, false, p⟩ := by
      rw [lookupRec_applyBatch]
      unfold insertBatch
      rw [List.append_assoc, List.append_assoc, resolveOps_append]
      have hrest : resolveOps ((bpOf s lowB).1 ++ ((apOf s highB).1 ++ endPuts lowB highB (bpOf s lowB).2 (apOf s highB).2)) (L - 1) = some (some ⟨true, false, p⟩) := by
        rw [resolveOps_append]
        have he : resolveOps (endPuts lowB highB (bpOf s lowB).2 (apOf s highB).2) (L - 1) = none := by
          refine resolveOps_nil_of fun op hm => ?_
          cases op with
          | del k' => exact (endPuts_no_del hm).elim
          | put k' r =>
            simp only [opKeyTouches, decide_eq_false_iff_not]
            rcases endPuts_put_key hm with hc | hc
            · rw [hl] at hc
              have : L = k' := Option.some.inj hc
              omega
            · rw [hh] at hc
              have : H = k' := Option.some.inj hc
              omega
        have ha : resolveOps (apOf s highB).1 (L - 1) = none := by
          refine resolveOps_nil_of fun op hm => ?_
          cases op with
          | del k' =>
            unfold apOf at hm
            exact (abovePlan_no_del hm).elim
          | put k' r =>
            simp only [opKeyTouches, decide_eq_false_iff_not]
            have := apOf_put_key hm
            omega
        rw [resolveOps_append, he, ha, hbp]
        simp [resolveOps]
      rw [hrest]
      simp
    exact hgoal

/-- claim C4 witness: on the interval 100..200 with reason "x", the
range Insert of 150..160 with reason "x" merges leftward writing nothing
at 149; on the one-address interval at 100 with reason "x", the range
Insert of 101..110 with reason "x" demotes the double at 100 to the
single lower bound. -/
theorem c4_witness :
    putsAt (insertBatch exWide (parsedRange 150 160 "x").1 (parsedRange 150 160 "x").2) 149 = [] ∧
      lookupRec (InsertOp exDouble (parsedRange 101 110 "x")) 100 = some ⟨true, false, "x"⟩ := by
  constructor
  · exact ((c4_merge_and_demote exWide 150 160 "x" _ _ rfl rfl (by decide) rfl
      (by decide)).1 100 (by decide) (by decide)).2.1
  · exact (c4_merge_and_demote exDouble 101 110 "x" _ _ rfl rfl (by decide) rfl
      (by decide)).2 "x" (by decide) rfl

/-! ## The flags invariant (claim C10) -/

theorem allFlagged_mem {s : State} {e : Int × Rec} (hall : allFlagged s = true)
    (he : e ∈ s) : recFlagged e.2 = true := by
  simp only [allFlagged, List.all_eq_true] at hall
  exact hall e he

theorem allFlagged_filter {s : State} {p : Int × Rec → Bool}
    (hall : allFlagged s = true) : allFlagged (s.filter p) = true := by
  simp only [allFlagged, List.all_eq_true] at hall ⊢
  exact fun e he => hall e (List.mem_of_mem_filter he)

theorem allFlagged_putRec {s : State} {k : Int} {r : Rec}
    (hall : allFlagged s = true) (hr : recFlagged r = true) :
    allFlagged (putRec k r s) = true := by
  induction s with
  | nil =>
    show (recFlagged r && true) = true
    rw [hr]
    rfl
  | cons e t ih =>
    have h0 : (recFlagged e.2 && allFlagged t) = true := hall
    simp only [Bool.and_eq_true] at h0
    have hhead : recFlagged e.2 = true := h0.1
    have htail : allFlagged t = true := h0.2
    unfold putRec
    by_cases h1 : k < e.1
    · rw [if_pos h1]
      show (recFlagged r && ((recFlagged e.2 && allFlagged t))) = true
      rw [hr, hhead, htail]
      rfl
    · rw [if_neg h1]
      by_cases h2 : k = e.1
      · rw [if_pos h2]
        show (recFlagged r && allFlagged t) = true
        rw [hr, htail]
        rfl
      · rw [if_neg h2]
        show (recFlagged e.2 && allFlagged (putRec k r t)) = true
        rw [hhead, ih htail]
        rfl

theorem allFlagged_applyBatch (ops : List Op) :
    ∀ s : State, allFlagged s = true →
      (∀ k r, Op.put k r ∈ ops → recFlagged r = true) →
      allFlagged (applyBatch s ops) = true := by
  induction ops with
  | nil =>
    intro s hall _
    simpa [applyBatch] using hall
  | cons op t ih =>
    intro s hall hput
    have h1 : allFlagged (applyOp s op) = true := by
      cases op with
      | del k => exact allFlagged_filter hall
      | put k r => exact allFlagged_putRec hall (hput k r (List.mem_cons_self _ _))
    have h2 := ih (applyOp s op) h1 (fun k r hm => hput k r (List.mem_cons_of_mem _ hm))
    simpa [applyBatch] using h2

theorem nearestBelow_flagged {s : State} {p : Int} (hall : allFlagged s = true) :
    ((nearestBelow s p).lower || (nearestBelow s p).upper) = true := by
  unfold nearestBelow
  cases hg : (s.filter fun e => decide (e.1 < p)).getLast? with
  | none => rfl
  | some e =>
    have hm := List.mem_of_mem_filter (mem_of_getLast?_eq hg)
    have := allFlagged_mem hall hm
    simpa [toBnd, recFlagged] using this

theorem nearestAbove_flagged {s : State} {p : Int} (hall : allFlagged s = true) :
    ((nearestAbove s p).lower || (nearestAbove s p).upper) = true := by
  unfold nearestAbove
  cases hg : (s.filter fun e => decide (p < e.1)).head? with
  | none => rfl
  | some e =>
    have hm := List.mem_of_mem_filter (mem_of_head?_eq hg)
    have := allFlagged_mem hall hm
    simpa [toBnd, recFlagged] using this

theorem putBnd_put_rec {b : Bnd} {k : Int} {r : Rec} (h : Op.put k r ∈ putBnd b) :
    r = b.toRec := by
  unfold putBnd at h
  revert h
  cases hb : b.ip with
  | none => intro h; simp at h
  | some x => intro h; simp at h; exact h.2

theorem belowPlan_put_flagged {bN cut lowB : Bnd} {k : Int} {r : Rec}
    (hcut : cut.upper = true) (h : Op.put k r ∈ (belowPlan bN cut lowB).1) :
    recFlagged r = true := by
  unfold belowPlan at h
  cases hL : bN.isLowerBound <;>
    cases hD : bN.isDoubleBound <;>
      cases hIp : bN.equalIP cut <;>
        cases hR : bN.equalReason lowB <;>
          simp only [hL, hD, hIp, hR] at h <;>
            simp at h <;>
              rw [putBnd_put_rec h] <;>
                simp [Bnd.toRec, recFlagged, Bnd.setDoubleBound, Bnd.setLowerBound, hcut]

theorem abovePlan_put_flagged {aN cut highB : Bnd} {k : Int} {r : Rec}
    (hcut : cut.lower = true) (h : Op.put k r ∈ (abovePlan aN cut highB).1) :
    recFlagged r = true := by
  unfold abovePlan at h
  cases hU : aN.isUpperBound <;>
    cases hD : aN.isDoubleBound <;>
      cases hIp : aN.equalIP cut <;>
        cases hR : aN.equalReason highB <;>
          simp only [hU, hD, hIp, hR] at h <;>
            simp at h <;>
              rw [putBnd_put_rec h] <;>
                simp [Bnd.toRec, recFlagged, Bnd.setDoubleBound, Bnd.setUpperBound, hcut]

theorem endPuts_put_flagged {lowB highB : Bnd} {il iu : Bool} {k : Int} {r : Rec}
    (hlow : recFlagged lowB.toRec = true) (hhigh : recFlagged highB.toRec = true)
    (h : Op.put k r ∈ endPuts lowB highB il iu) : recFlagged r = true := by
  unfold endPuts at h
  cases hE : lowB.equalIP highB <;>
    cases il <;>
      cases iu <;>
        simp only [hE] at h <;>
          simp at h
  case true.true.true =>
    rw [putBnd_put_rec h]
    simp [Bnd.setDoubleBound, Bnd.toRec, recFlagged]
  all_goals
    first
      | (rcases h with h | h
         · rw [putBnd_put_rec h]; exact hlow
         · rw [putBnd_put_rec h]; exact hhigh)
      | (rw [putBnd_put_rec h]; exact hlow)
      | (rw [putBnd_put_rec h]; exact hhigh)

theorem insertBatch_put_flagged {s : State} {lowB highB : Bnd} {k : Int} {r : Rec}
    (hlow : recFlagged lowB.toRec = true) (hhigh : recFlagged highB.toRec = true)
    (h : Op.put k r ∈ insertBatch s lowB highB) : recFlagged r = true := by
  unfold insertBatch at h
  rcases List.mem_append.1 h with h1 | h1
  · rcases List.mem_append.1 h1 with h2 | h2
    · rcases List.mem_append.1 h2 with h3 | h3
      · exact (no_put_in_dels h3).elim
      · exact @belowPlan_put_flagged _ (belowCutOf s (ipKey lowB)) _ _ _ rfl h3
    · exact @abovePlan_put_flagged _ (aboveCutOf s (ipKey highB)) _ _ _ rfl h2
  · exact endPuts_put_flagged hlow hhigh h1

theorem removeBelowOps_put_flagged {s : State} {L : Int} {k : Int} {r : Rec}
    (h : Op.put k r ∈ removeBelowOps s L) : recFlagged r = true := by
  unfold removeBelowOps at h
  split at h
  · split at h
    · rw [putBnd_put_rec h]
      simp [Bnd.toRec, recFlagged]
    · rw [putBnd_put_rec h]
      simp [Bnd.toRec, recFlagged, Bnd.setDoubleBound]
  · simp at h

theorem removeAboveOps_put_flagged {s : State} {H : Int} {k : Int} {r : Rec}
    (h : Op.put k r ∈ removeAboveOps s H) : recFlagged r = true := by
  unfold removeAboveOps at h
  split at h
  · split at h
    · rw [putBnd_put_rec h]
      simp [Bnd.toRec, recFlagged]
    · rw [putBnd_put_rec h]
      simp [Bnd.toRec, recFlagged, Bnd.setDoubleBound]
  · simp at h

theorem removeBatch_put_flagged {s : State} {L H : Int} {k : Int} {r : Rec}
    (h : Op.put k r ∈ removeBatch s L H) : recFlagged r = true := by
  unfold removeBatch at h
  rcases List.mem_append.1 h with h1 | h1
  · rcases List.mem_append.1 h1 with h2 | h2
    · exact (no_put_in_dels h2).elim
    · exact removeBelowOps_put_flagged h2
  · exact removeAboveOps_put_flagged h1

theorem updOutside_put_flagged {s : State} {ip : Int} {fn : String → String}
    {k : Int} {r : Rec} (hall : allFlagged s = true)
    (h : Op.put k r ∈ (updOutside s ip fn).2) : recFlagged r = true := by
  have hbelow : (nearestBelow s ip).lower = true ∨ (nearestBelow s ip).upper = true := by
    simpa using nearestBelow_flagged (p := ip) hall
  have habove : (nearestAbove s ip).lower = true ∨ (nearestAbove s ip).upper = true := by
    simpa using nearestAbove_flagged (p := ip) hall
  unfold updOutside at h
  split at h
  · split at h
    · rcases List.mem_append.1 h with hm | hm
      · rw [putBnd_put_rec hm]
        simpa [Bnd.toRec, recFlagged] using hbelow
      · rw [putBnd_put_rec hm]
        simpa [Bnd.toRec, recFlagged] using habove
    · simp at h
  · simp at h

theorem updInside_put_flagged {s : State} {ip : Int} {fn : String → String}
    {f : Int × Rec} {k : Int} {r : Rec} (hall : allFlagged s = true)
    (hf : recFlagged f.2 = true)
    (h : Op.put k r ∈ (updInside s ip fn f).2) : recFlagged r = true := by
  have hbelow : (nearestBelow s ip).lower = true ∨ (nearestBelow s ip).upper = true := by
    simpa using nearestBelow_flagged (p := ip) hall
  have habove : (nearestAbove s ip).lower = true ∨ (nearestAbove s ip).upper = true := by
    simpa using nearestAbove_flagged (p := ip) hall
  have hfr : ∀ q : String, recFlagged ⟨f.2.lower, f.2.upper, q⟩ = true := by
    intro q
    simpa [recFlagged] using hf
  unfold updInside at h
  split at h
  · simp at h
    rw [h.2]
    exact hfr _
  · split at h
    · split at h
      · rcases List.mem_append.1 h with hm | hm
        · simp at hm
          rw [hm.2]
          exact hfr _
        · rw [putBnd_put_rec hm]
          simpa [Bnd.toRec, recFlagged] using habove
      · simp at h
    · split at h
      · rcases List.mem_append.1 h with hm | hm
        · rw [putBnd_put_rec hm]
          simpa [Bnd.toRec, recFlagged] using hbelow
        · simp at hm
          rw [hm.2]
          exact hfr _
      · simp at h

theorem updatePlan_put_flagged {s : State} {ip : Int} {fn : String → String}
    {k : Int} {r : Rec} (hall : allFlagged s = true)
    (h : Op.put k r ∈ (updatePlan s ip fn).2) : recFlagged r = true := by
  unfold updatePlan at h
  rcases hIns : insideList s ip ip with _ | ⟨f, rest⟩
  · rw [hIns] at h
    exact updOutside_put_flagged hall h
  · have hmem : f ∈ insideList s ip ip := by
      rw [hIns]
      exact List.mem_cons_self _ _
    have hf : recFlagged f.2 = true :=
      allFlagged_mem hall (List.mem_of_mem_filter hmem)
    cases rest with
    | nil =>
      rw [hIns] at h
      exact updInside_put_flagged hall hf h
    | cons g t =>
      rw [hIns] at h
      exact updOutside_put_flagged hall h

theorem allFlagged_reachable {s : State} (hs : Reachable s) : allFlagged s = true := by
  induction hs with
  | init => rfl
  | insertSingle s ip x _ ih =>
    show allFlagged (applyBatch s (insertBatch s (parsedSingle ip x).1 (parsedSingle ip x).2)) = true
    exact allFlagged_applyBatch _ s ih fun k r hm =>
      insertBatch_put_flagged (by rfl) (by rfl) hm
  | insertRange s lo hi x _ _ ih =>
    show allFlagged (applyBatch s (insertBatch s (parsedRange lo hi x).1 (parsedRange lo hi x).2)) = true
    exact allFlagged_applyBatch _ s ih fun k r hm =>
      insertBatch_put_flagged (by rfl) (by rfl) hm
  | remove s L H _ _ ih =>
    show allFlagged (applyBatch s (removeBatch s L H)) = true
    exact allFlagged_applyBatch _ s ih fun k r hm => removeBatch_put_flagged hm
  | update s ip fn _ ih =>
    show allFlagged (applyBatch s (updatePlan s ip fn).2) = true
    exact allFlagged_applyBatch _ s ih fun k r hm => updatePlan_put_flagged ih hm

/-- claim C10: on every state reachable from the initialised database
through Insert, Remove, Find and UpdateReasonOf, every stored boundary
record has at least one of the lower/upper flags set, and so does every
boundary the vicinity query hands to the planner (the sentinels
included); hence the panic branches guarding a boundary with both flags
unset in IsDoubleBound and IsSingleBoundary can never fire. -/
theorem c10_boundary_flags (s : State) (hs : Reachable s) :
    allFlagged s = true ∧
      (∀ p : Int, (nearestBelow s p).flagsUnset = false ∧
        (nearestAbove s p).flagsUnset = false) ∧
      (∀ lo hi : Int, ∀ e ∈ insideList s lo hi, (toBnd e).flagsUnset = false) := by
  have hall := allFlagged_reachable hs
  refine ⟨hall, fun p => ⟨?_, ?_⟩, fun lo hi e he => ?_⟩
  · have := nearestBelow_flagged (p := p) hall
    revert this
    unfold Bnd.flagsUnset
    cases (nearestBelow s p).lower <;> cases (nearestBelow s p).upper <;> simp
  · have := nearestAbove_flagged (p := p) hall
    revert this
    unfold Bnd.flagsUnset
    cases (nearestAbove s p).lower <;> cases (nearestAbove s p).upper <;> simp
  · have := allFlagged_mem hall (List.mem_of_mem_filter he)
    revert this
    unfold Bnd.flagsUnset toBnd recFlagged
    cases e.2.lower <;> cases e.2.upper <;> simp

/-- claim C10 witness: the state after inserting the single address 5
with reason "A" into the fresh database is reachable, all its records
carry a flag, and the vicinity boundaries around 9 carry flags. -/
theorem c10_witness :
    allFlagged (InsertOp [] (parsedSingle 5 "A")) = true ∧
      (nearestBelow (InsertOp [] (parsedSingle 5 "A")) 9).flagsUnset = false :=
  ⟨(c10_boundary_flags _ (Reachable.insertSingle [] 5 "A" Reachable.init)).1,
    ((c10_boundary_flags _ (Reachable.insertSingle [] 5 "A" Reachable.init)).2.1 9).1⟩

/-! ## The parser claims (C9) -/

theorem cidrFindAux_none_of_noRun7 {cs : List Char} (h : noRun7 cs = true) :
    cidrFindAux cs = none := by
  induction cs with
  | nil => rfl
  | cons c t ih =>
    simp only [noRun7, Bool.and_eq_true, decide_eq_true_eq] at h
    have h7 : ¬(7 ≤ classRun (c :: t)) := by omega
    have hcond : (decide (7 ≤ classRun (c :: t)) && decide (classRun (c :: t) ≤ 41)) = false := by
      simp [h7]
    simp only [cidrFindAux, hcond, Bool.false_eq_true, if_false]
    exact ih h.2

theorem rangeFindAux_none_of_noRun7 {cs : List Char} (h : noRun7 cs = true) :
    rangeFindAux cs = none := by
  induction cs with
  | nil => rfl
  | cons c t ih =>
    simp only [noRun7, Bool.and_eq_true, decide_eq_true_eq] at h
    have h7 : ¬(7 ≤ classRun (c :: t)) := by omega
    have hcond : (decide (7 ≤ classRun (c :: t)) && decide (classRun (c :: t) ≤ 41)) = false := by
      simp [h7]
    simp only [rangeFindAux, hcond, Bool.false_eq_true, if_false]
    exact ih h.2

theorem ipFindAux_none_of_noRun7 {cs : List Char} (h : noRun7 cs = true) :
    ipFindAux cs = none := by
  induction cs with
  | nil => rfl
  | cons c t ih =>
    simp only [noRun7, Bool.and_eq_true, decide_eq_true_eq] at h
    have h7 : ¬(7 ≤ classRun (c :: t)) := by omega
    simp only [ipFindAux, if_neg h7]
    exact ih h.2

/-- claim C9 counterexample: Boundaries("fe80::/120") does not fail with
IPv6NotSupported.  The address part "fe80::" is only six characters, so
none of the three patterns — each demanding a run of at least seven IP
characters — matches, and the parser reports InvalidRange instead. -/
theorem c9_counterexample :
    goBoundaries "fe80::/120" = .error .invalidRange ∧
      goBoundaries "fe80::/120" ≠ .error .ipv6NotSupported := by
  refine ⟨by decide, by decide⟩

/-- claim C9 as amended: the parser consumed by Insert and Remove never
touches the store and rejects IPv6 input before it, but with two
different errors: an IPv6 text long enough to match a pattern, such as
fe80::204:61ff:fe9d:f156/120, is rejected with IPv6NotSupported by the
To4 check, while an input all of whose IP-character runs are shorter
than seven — such as fe80::/120 — matches no pattern and is rejected
with InvalidRange. -/
theorem c9_amended :
    goBoundaries "fe80::/120" = .error .invalidRange ∧
      goBoundaries "fe80::204:61ff:fe9d:f156/120" = .error .ipv6NotSupported ∧
      ∀ cs : List Char, noRun7 cs = true → boundariesChars cs = .error .invalidRange := by
  refine ⟨by decide, by decide, ?_⟩
  intro cs h
  unfold boundariesChars
  rw [cidrFindAux_none_of_noRun7 h, rangeFindAux_none_of_noRun7 h, ipFindAux_none_of_noRun7 h]

/-- claim C9 witness: the short form fe80:: alone also matches no
pattern and is rejected with InvalidRange through the general lemma. -/
theorem c9_witness :
    boundariesChars "fe80::".data = Except.error PErr.invalidRange :=
  c9_amended.2.2 "fe80::".data (by decide)

/-! ## Structure of encoded interval lists -/

theorem filter_nil_of_false {α : Type} {p : α → Bool} {l : List α}
    (h : ∀ a ∈ l, p a = false) : l.filter p = [] := by
  induction l with
  | nil => rfl
  | cons a t ih =>
    have ha := h a (List.mem_cons_self _ _)
    rw [List.filter_cons, ha]
    simp only [Bool.false_eq_true, if_false]
    exact ih fun b hb => h b (List.mem_cons_of_mem _ hb)

theorem filter_self_of_true {α : Type} {p : α → Bool} {l : List α}
    (h : ∀ a ∈ l, p a = true) : l.filter p = l := by
  induction l with
  | nil => rfl
  | cons a t ih =>
    have ha := h a (List.mem_cons_self _ _)
    rw [List.filter_cons, ha]
    simp only [if_true]
    rw [ih fun b hb => h b (List.mem_cons_of_mem _ hb)]

theorem getLast?_append_right {α : Type} {a b : List α} (h : b ≠ []) :
    (a ++ b).getLast? = b.getLast? := by
  induction a with
  | nil => rfl
  | cons x t ih =>
    rw [List.cons_append]
    cases hb : t ++ b with
    | nil => exact absurd (List.append_eq_nil.1 hb).2 h
    | cons y u =>
      rw [List.getLast?_cons_cons, ← hb, ih]

theorem toB_cons (iv : Iv) (t : List Iv) : toB (iv :: t) = encIv iv ++ toB t := by
  simp [toB]

theorem ivChainFrom_cons {lo : Int} {iv : Iv} {t : List Iv}
    (h : ivChainFrom lo (iv :: t) = true) :
    lo ≤ iv.l ∧ iv.l ≤ iv.h ∧ iv.reason ≠ "" ∧ ivChainFrom (iv.h + 1) t = true := by
  simp only [ivChainFrom, Bool.and_eq_true, decide_eq_true_eq, bne_iff_ne] at h
  exact ⟨h.1.1.1, h.1.1.2, h.1.2, h.2⟩

theorem encIv_key_bounds {iv : Iv} {e : Int × Rec} (hlh0 : iv.l ≤ iv.h)
    (hm : e ∈ encIv iv) : iv.l ≤ e.1 ∧ e.1 ≤ iv.h := by
  unfold encIv at hm
  by_cases hlh : iv.l = iv.h
  · rw [if_pos hlh] at hm
    simp at hm
    rw [hm]
    omega
  · rw [if_neg hlh] at hm
    simp at hm
    rcases hm with hm | hm <;> rw [hm] <;> simp <;> omega

theorem toB_keys_ge {lo : Int} {ivs : List Iv} (h : ivChainFrom lo ivs = true) :
    ∀ e ∈ toB ivs, lo ≤ e.1 := by
  induction ivs generalizing lo with
  | nil =>
    intro e he
    simp [toB] at he
  | cons iv t ih =>
    obtain ⟨h1, h2, _, h4⟩ := ivChainFrom_cons h
    intro e he
    rw [toB_cons] at he
    rcases List.mem_append.1 he with hm | hm
    · have := (encIv_key_bounds h2 hm).1
      omega
    · have := ih h4 e hm
      omega

theorem findIval_cons_of_false {iv : Iv} {t : List Iv} {ip : Int}
    (h : (decide (iv.l ≤ ip) && decide (ip ≤ iv.h)) = false) :
    findIval (iv :: t) ip = findIval t ip := by
  simp only [findIval, List.find?, h]

theorem findIval_cons_of_true {iv : Iv} {t : List Iv} {ip : Int}
    (h : (decide (iv.l ≤ ip) && decide (ip ≤ iv.h)) = true) :
    findIval (iv :: t) ip = some iv.reason := by
  simp only [findIval, List.find?, h]
  rfl

theorem findIval_none_of_lt {lo ip : Int} {t : List Iv}
    (h : ivChainFrom lo t = true) (hip : ip < lo) : findIval t ip = none := by
  induction t generalizing lo with
  | nil => rfl
  | cons iv u ih =>
    obtain ⟨h1, h2, _, h4⟩ := ivChainFrom_cons h
    rw [findIval_cons_of_false (by simp; omega)]
    exact ih h4 (by omega)

theorem filter_cons_pos {α : Type} {p : α → Bool} {x : α} (l : List α) (h : p x = true) :
    (x :: l).filter p = x :: l.filter p := by
  rw [List.filter_cons, h]
  simp

theorem filter_cons_neg {α : Type} {p : α → Bool} {x : α} (l : List α) (h : p x = false) :
    (x :: l).filter p = l.filter p := by
  rw [List.filter_cons, h]
  simp

theorem ivChainFrom_shift {lo : Int} {iv : Iv} {t : List Iv}
    (h : ivChainFrom lo (iv :: t) = true) : ivChainFrom iv.l (iv :: t) = true := by
  obtain ⟨h1, h2, h3, h4⟩ := ivChainFrom_cons h
  simp only [ivChainFrom, h4, Bool.and_true]
  simp [h2, h3]

theorem toB_cons_keys {iv : Iv} {t : List Iv} (h2 : iv.l ≤ iv.h)
    (h4 : ivChainFrom (iv.h + 1) t = true) :
    ∀ e ∈ toB (iv :: t), iv.l ≤ e.1 := by
  intro e he
  rw [toB_cons] at he
  rcases List.mem_append.1 he with hm | hm
  · exact (encIv_key_bounds h2 hm).1
  · have := toB_keys_ge h4 e hm
    omega

theorem insideList_append (a b : State) (lo hi : Int) :
    insideList (a ++ b) lo hi = insideList a lo hi ++ insideList b lo hi := by
  simp [insideList, List.filter_append]

theorem insideList_nil_of_gt {s : State} {ip : Int}
    (h : ∀ e ∈ s, ip < e.1) : insideList s ip ip = [] := by
  refine filter_nil_of_false ?_
  intro e he
  have := h e he
  simp
  omega

theorem insideList_nil_of_lt {s : State} {ip : Int}
    (h : ∀ e ∈ s, e.1 < ip) : insideList s ip ip = [] := by
  refine filter_nil_of_false ?_
  intro e he
  have := h e he
  simp
  omega

theorem nearestBelow_append_nilright {a b : State} {ip : Int}
    (hb : b.filter (fun e => decide (e.1 < ip)) = []) :
    nearestBelow (a ++ b) ip = nearestBelow a ip := by
  unfold nearestBelow
  rw [List.filter_append, hb, List.append_nil]

theorem nearestBelow_append_right {a b : State} {ip : Int}
    (hb : b.filter (fun e => decide (e.1 < ip)) ≠ []) :
    nearestBelow (a ++ b) ip = nearestBelow b ip := by
  unfold nearestBelow
  rw [List.filter_append, getLast?_append_right hb]

theorem nearestAbove_append_nilleft {a b : State} {ip : Int}
    (ha : a.filter (fun e => decide (ip < e.1)) = []) :
    nearestAbove (a ++ b) ip = nearestAbove b ip := by
  unfold nearestAbove
  rw [List.filter_append, ha, List.nil_append]

theorem nearestBelow_ninf {s : State} {ip : Int}
    (h : s.filter (fun e => decide (e.1 < ip)) = []) :
    nearestBelow s ip = ninfBnd := by
  unfold nearestBelow
  rw [h]
  rfl

theorem filter_below_nil_of {s : State} {ip : Int} (h : ∀ e ∈ s, ¬ e.1 < ip) :
    s.filter (fun e => decide (e.1 < ip)) = [] := by
  refine filter_nil_of_false ?_
  intro e he
  simpa using h e he

theorem filter_above_nil_of {s : State} {ip : Int} (h : ∀ e ∈ s, ¬ ip < e.1) :
    s.filter (fun e => decide (ip < e.1)) = [] := by
  refine filter_nil_of_false ?_
  intro e he
  simpa using h e he

theorem nearestBelow_encIv_after {iv : Iv} {ip : Int} (hip : iv.h < ip) (hlh : iv.l ≤ iv.h) :
    (nearestBelow (encIv iv) ip).isLowerBound = false := by
  have d1 : iv.l < ip := by omega
  unfold nearestBelow encIv
  by_cases hd : iv.l = iv.h
  · rw [if_pos hd]
    simp [d1, toBnd, Bnd.isLowerBound, Bnd.isSingleBound]
  · rw [if_neg hd]
    simp [d1, hip, toBnd, Bnd.isLowerBound, Bnd.isSingleBound]

theorem vicinity_char (ivs : List Iv) : ∀ lo ip : Int, ivChainFrom lo ivs = true →
    (∃ r, insideList (toB ivs) ip ip = [(ip, r)] ∧ findIval ivs ip = some r.reason) ∨
    (insideList (toB ivs) ip ip = [] ∧ ∃ q, q ≠ "" ∧ findIval ivs ip = some q ∧
      (nearestBelow (toB ivs) ip).isLowerBound = true ∧
      (nearestBelow (toB ivs) ip).reason = q ∧
      (nearestAbove (toB ivs) ip).isUpperBound = true ∧
      (nearestAbove (toB ivs) ip).reason = q) ∨
    (insideList (toB ivs) ip ip = [] ∧ findIval ivs ip = none ∧
      ((nearestBelow (toB ivs) ip).isLowerBound &&
        (nearestAbove (toB ivs) ip).isUpperBound) = false) := by
  induction ivs with
  | nil =>
    intro lo ip _
    right; right
    exact ⟨rfl, rfl, rfl⟩
  | cons iv t ih =>
    intro lo ip h
    obtain ⟨h1, h2, h3, h4⟩ := ivChainFrom_cons h
    have kt : ∀ e ∈ toB t, iv.h + 1 ≤ e.1 := toB_keys_ge h4
    by_cases hlt : ip < iv.l
    · right; right
      have hall : ∀ e ∈ toB (iv :: t), iv.l ≤ e.1 := toB_cons_keys h2 h4
      refine ⟨insideList_nil_of_gt (fun e he => by have := hall e he; omega),
        findIval_none_of_lt (ivChainFrom_shift h) hlt, ?_⟩
      rw [nearestBelow_ninf (filter_below_nil_of (fun e he => by have := hall e he; omega))]
      rfl
    · by_cases hgt : iv.h < ip
      · have hins : insideList (toB (iv :: t)) ip ip = insideList (toB t) ip ip := by
          rw [toB_cons, insideList_append,
            insideList_nil_of_lt (fun e he => by have := (encIv_key_bounds h2 he).2; omega),
            List.nil_append]
        have hfa : findIval (iv :: t) ip = findIval t ip :=
          findIval_cons_of_false (by simp; omega)
        have habv : nearestAbove (toB (iv :: t)) ip = nearestAbove (toB t) ip := by
          rw [toB_cons]
          exact nearestAbove_append_nilleft (filter_above_nil_of
            (fun e he => by have := (encIv_key_bounds h2 he).2; omega))
        rcases ih (iv.h + 1) ip h4 with ⟨r, hr1, hr2⟩ |
          ⟨hi0, q, hq0, hq1, hb1, hb2, ha1, ha2⟩ | ⟨hi0, hf0, hcond⟩
        · exact Or.inl ⟨r, by rw [hins, hr1], by rw [hfa, hr2]⟩
        · have hft : (toB t).filter (fun e => decide (e.1 < ip)) ≠ [] := by
            intro hc
            rw [nearestBelow_ninf hc] at hb1
            exact Bool.noConfusion hb1
          have hbeq : nearestBelow (toB (iv :: t)) ip = nearestBelow (toB t) ip := by
            rw [toB_cons]; exact nearestBelow_append_right hft
          right; left
          exact ⟨by rw [hins, hi0], q, hq0, by rw [hfa, hq1], by rw [hbeq]; exact hb1,
            by rw [hbeq]; exact hb2, by rw [habv]; exact ha1, by rw [habv]; exact ha2⟩
        · right; right
          refine ⟨by rw [hins, hi0], by rw [hfa, hf0], ?_⟩
          by_cases hft : (toB t).filter (fun e => decide (e.1 < ip)) = []
          · have hbe : nearestBelow (toB (iv :: t)) ip = nearestBelow (encIv iv) ip := by
              rw [toB_cons]; exact nearestBelow_append_nilright hft
            rw [hbe, nearestBelow_encIv_after hgt h2]
            rfl
          · have hbeq : nearestBelow (toB (iv :: t)) ip = nearestBelow (toB t) ip := by
              rw [toB_cons]; exact nearestBelow_append_right hft
            rw [hbeq, habv]
            exact hcond
      · have hip1 : iv.l ≤ ip := by omega
        have hip2 : ip ≤ iv.h := by omega
        have hfi : findIval (iv :: t) ip = some iv.reason :=
          findIval_cons_of_true (by simp; omega)
        have htin : insideList (toB t) ip ip = [] :=
          insideList_nil_of_gt (fun e he => by have := kt e he; omega)
        by_cases hd : iv.l = iv.h
        · left
          refine ⟨⟨true, true, iv.reason⟩, ?_, by rw [hfi]⟩
          rw [toB_cons, insideList_append, htin, List.append_nil]
          have hipd : ip = iv.l := by omega
          subst hipd
          simp [insideList, encIv, if_pos hd]
        · have hlh : iv.l < iv.h := by omega
          by_cases hel : ip = iv.l
          · left
            refine ⟨⟨true, false, iv.reason⟩, ?_, by rw [hfi]⟩
            rw [toB_cons, insideList_append, htin, List.append_nil]
            subst hel
            simp only [insideList, encIv, if_neg hd]
            rw [filter_cons_pos _ (by simp), filter_cons_neg _ (by simp; omega),
              List.filter_nil]
          · by_cases heh : ip = iv.h
            · left
              refine ⟨⟨false, true, iv.reason⟩, ?_, by rw [hfi]⟩
              rw [toB_cons, insideList_append, htin, List.append_nil]
              subst heh
              simp only [insideList, encIv, if_neg hd]
              rw [filter_cons_neg _ (by simp; omega), filter_cons_pos _ (by simp),
                List.filter_nil]
            · have hint1 : iv.l < ip := by
                rcases lt_or_eq_of_le hip1 with hx | hx
                · exact hx
                · exact absurd hx.symm hel
              have hint2 : ip < iv.h := by
                rcases lt_or_eq_of_le hip2 with hx | hx
                · exact hx
                · exact absurd hx heh
              right; left
              have hins0 : insideList (toB (iv :: t)) ip ip = [] := by
                rw [toB_cons, insideList_append, htin, List.append_nil]
                simp only [insideList, encIv, if_neg hd]
                rw [filter_cons_neg _ (by simp; omega), filter_cons_neg _ (by simp; omega),
                  List.filter_nil]
              have hnb : nearestBelow (toB (iv :: t)) ip =
                  ⟨some iv.l, true, false, iv.reason⟩ := by
                rw [toB_cons, nearestBelow_append_nilright (filter_below_nil_of
                  (fun e he => by have := kt e he; omega))]
                unfold nearestBelow
                simp only [encIv, if_neg hd]
                rw [filter_cons_pos _ (by simp; omega), filter_cons_neg _ (by simp; omega),
                  List.filter_nil]
                rfl
              have hna : nearestAbove (toB (iv :: t)) ip =
                  ⟨some iv.h, false, true, iv.reason⟩ := by
                rw [toB_cons]
                unfold nearestAbove
                rw [List.filter_append]
                simp only [encIv, if_neg hd]
                rw [filter_cons_neg _ (by simp; omega), filter_cons_pos _ (by simp; omega),
                  List.filter_nil, List.singleton_append, List.head?_cons]
                rfl
              exact ⟨hins0, iv.reason, h3, hfi, by rw [hnb]; rfl, by rw [hnb],
                by rw [hna]; rfl, by rw [hna]⟩

/-- claim C1 (amended): on every invariant-satisfying state — the encoding
of a well-formed interval list — Find runs the vicinity query of the single
ip and returns the reason of the inside boundary whenever the inside list
has exactly one element (be it a double or a single boundary, not only a
double as the claim words it); otherwise the reason of the nearest boundary
strictly below when that one is a lower bound and the nearest boundary
strictly above is an upper bound; otherwise the IPNotFound error.  Under
this amended reading Find never reaches its panic branch and returns a
reason exactly for the addresses lying inside some stored interval. -/
theorem c1_amended (ivs : List Iv) (ip : Int) (h : ivChain ivs = true) :
    FindOp (toB ivs) ip = amendedFind (toB ivs) ip ∧
    FindOp (toB ivs) ip = (match findIval ivs ip with
      | some q => FindRes.ok q
      | none => FindRes.notFound) := by
  rcases vicinity_char ivs 0 ip h with ⟨r, h1, h2⟩ |
    ⟨h1, q, hq0, hq1, hb1, hb2, ha1, ha2⟩ | ⟨h1, h2, h3⟩
  · constructor
    · simp [FindOp, amendedFind, h1]
    · simp [FindOp, h1, h2]
  · have heq : (nearestBelow (toB ivs) ip).equalReason (nearestAbove (toB ivs) ip) = true := by
      simp [Bnd.equalReason, Bnd.hasReason, hb2, ha2, hq0]
    constructor
    · simp [FindOp, amendedFind, claimFindOuter, h1, hb1, ha1, heq]
    · simp [FindOp, h1, hb1, ha1, heq, hq1, hb2]
  · constructor
    · simp [FindOp, amendedFind, claimFindOuter, h1, h3]
    · simp [FindOp, h1, h2, h3]

/-- claim C1 witness: the amended Find characterisation applied to the
store holding the single interval 10..20 with reason "A", queried at the
interval start 10. -/
theorem c1_witness :
    ivChain [(⟨10, 20, "A"⟩ : Iv)] = true ∧
      (FindOp (toB [(⟨10, 20, "A"⟩ : Iv)]) 10 =
          amendedFind (toB [(⟨10, 20, "A"⟩ : Iv)]) 10 ∧
        FindOp (toB [(⟨10, 20, "A"⟩ : Iv)]) 10 =
          (match findIval [(⟨10, 20, "A"⟩ : Iv)] 10 with
            | some q => FindRes.ok q
            | none => FindRes.notFound)) :=
  ⟨by decide, c1_amended [⟨10, 20, "A"⟩] 10 (by decide)⟩

/-! ## Batch application and list-order lemmas for the round trip -/

theorem putRec_update {k : Int} {r r' : Rec} (ys : State) :
    ∀ xs : State, (∀ e ∈ xs, e.1 < k) →
      putRec k r (xs ++ (k, r') :: ys) = xs ++ (k, r) :: ys := by
  intro xs
  induction xs with
  | nil =>
    intro _
    simp [putRec]
  | cons e t ih =>
    intro hxs
    have he := hxs e (List.mem_cons_self _ _)
    have h1 : ¬ k < e.1 := by omega
    have h2 : ¬ k = e.1 := by omega
    simp only [List.cons_append, putRec, if_neg h1, if_neg h2]
    exact congrArg (List.cons e) (ih fun b hb => hxs b (List.mem_cons_of_mem _ hb))

theorem putRec_insert {k : Int} {r : Rec} {ys : State} (hys : ∀ e ∈ ys, k < e.1) :
    ∀ xs : State, (∀ e ∈ xs, e.1 < k) →
      putRec k r (xs ++ ys) = xs ++ (k, r) :: ys := by
  intro xs
  induction xs with
  | nil =>
    intro _
    simp only [List.nil_append]
    cases ys with
    | nil => rfl
    | cons b u =>
      have hb := hys b (List.mem_cons_self _ _)
      simp only [putRec, if_pos hb]
  | cons e t ih =>
    intro hxs
    have he := hxs e (List.mem_cons_self _ _)
    have h1 : ¬ k < e.1 := by omega
    have h2 : ¬ k = e.1 := by omega
    simp only [List.cons_append, putRec, if_neg h1, if_neg h2]
    exact congrArg (List.cons e) (ih fun b hb => hxs b (List.mem_cons_of_mem _ hb))

theorem applyBatch_append (s : State) (u v : List Op) :
    applyBatch s (u ++ v) = applyBatch (applyBatch s u) v := by
  simp [applyBatch, List.foldl_append]

theorem del_middle {k : Int} {r : Rec} {xs ys : State}
    (hxs : ∀ e ∈ xs, e.1 ≠ k) (hys : ∀ e ∈ ys, e.1 ≠ k) :
    applyOp (xs ++ (k, r) :: ys) (.del k) = xs ++ ys := by
  simp only [applyOp]
  rw [List.filter_append, filter_self_of_true (fun e he => by simpa using hxs e he),
    filter_cons_neg _ (by simp), filter_self_of_true (fun e he => by simpa using hys e he)]

theorem sortedKeys_cons {t : State} : ∀ a : Int × Rec, sortedKeys (a :: t) = true →
    sortedKeys t = true ∧ ∀ e ∈ t, a.1 < e.1 := by
  induction t with
  | nil => exact fun a _ => ⟨rfl, by simp⟩
  | cons b u ih =>
    intro a h
    have h' : a.1 < b.1 ∧ sortedKeys (b :: u) = true := by
      simpa [sortedKeys] using h
    obtain ⟨hab, hbu⟩ := h'
    obtain ⟨hu, hb⟩ := ih b hbu
    refine ⟨hbu, ?_⟩
    intro e he
    rcases List.mem_cons.1 he with rfl | he'
    · exact hab
    · have := hb e he'
      omega

theorem sorted_concat_lt {e : Int × Rec} : ∀ xs : State,
    sortedKeys (xs ++ [e]) = true → ∀ b ∈ xs, b.1 < e.1 := by
  intro xs
  induction xs with
  | nil =>
    intro _ b hb
    simp at hb
  | cons a t ih =>
    intro h b hb
    rw [List.cons_append] at h
    obtain ⟨ht, hall⟩ := sortedKeys_cons a h
    rcases List.mem_cons.1 hb with rfl | hb'
    · exact hall e (by simp)
    · exact ih ht b hb'

theorem sortedKeys_append : ∀ a : State, sortedKeys a = true → ∀ b : State,
    sortedKeys b = true → (∀ x ∈ a, ∀ y ∈ b, x.1 < y.1) →
    sortedKeys (a ++ b) = true := by
  intro a
  induction a with
  | nil =>
    intro _ b hb _
    simpa using hb
  | cons e t ih =>
    intro h b hb hx
    obtain ⟨ht, hall⟩ := sortedKeys_cons e h
    have htb : sortedKeys (t ++ b) = true :=
      ih ht b hb fun p hp y hy => hx p (List.mem_cons_of_mem _ hp) y hy
    rw [List.cons_append]
    cases htb' : t ++ b with
    | nil => rfl
    | cons f u =>
      have hef : e.1 < f.1 := by
        have hf : f ∈ t ++ b := by
          rw [htb']
          exact List.mem_cons_self _ _
        rcases List.mem_append.1 hf with hf' | hf'
        · exact hall f hf'
        · exact hx e (List.mem_cons_self _ _) f hf'
      rw [htb'] at htb
      simp only [sortedKeys]
      simp [hef, htb]

theorem toB_append (P Q : List Iv) : toB (P ++ Q) = toB P ++ toB Q := by
  simp [toB]

theorem toB_mem {ivs : List Iv} {e : Int × Rec} (h : e ∈ toB ivs) :
    ∃ iv ∈ ivs, e ∈ encIv iv := by
  simp only [toB, List.mem_flatten, List.mem_map] at h
  obtain ⟨l, ⟨iv, hiv, rfl⟩, he⟩ := h
  exact ⟨iv, hiv, he⟩

theorem ivChainFrom_mem {ivs : List Iv} : ∀ lo : Int, ivChainFrom lo ivs = true →
    ∀ iv ∈ ivs, lo ≤ iv.l ∧ iv.l ≤ iv.h ∧ iv.reason ≠ "" := by
  induction ivs with
  | nil =>
    intro lo _ iv hiv
    simp at hiv
  | cons jv t ih =>
    intro lo h iv hiv
    obtain ⟨h1, h2, h3, h4⟩ := ivChainFrom_cons h
    rcases List.mem_cons.1 hiv with rfl | hiv'
    · exact ⟨h1, h2, h3⟩
    · have := ih (jv.h + 1) h4 iv hiv'
      exact ⟨by omega, this.2.1, this.2.2⟩

theorem ivChainFrom_weaken {lo lo' : Int} {ivs : List Iv}
    (h : ivChainFrom lo ivs = true) (hle : ∀ iv ∈ ivs, lo' ≤ iv.l) :
    ivChainFrom lo' ivs = true := by
  cases ivs with
  | nil => rfl
  | cons iv t =>
    obtain ⟨h1, h2, h3, h4⟩ := ivChainFrom_cons h
    have := hle iv (List.mem_cons_self _ _)
    simp only [ivChainFrom, h4, Bool.and_true]
    simp [this, h2, h3]

theorem encIv_ne_nil (iv : Iv) : encIv iv ≠ [] := by
  unfold encIv
  split <;> simp

theorem encIv_sorted {iv : Iv} (h : iv.l ≤ iv.h) : sortedKeys (encIv iv) = true := by
  unfold encIv
  by_cases hd : iv.l = iv.h
  · rw [if_pos hd]
    rfl
  · rw [if_neg hd]
    simp only [sortedKeys]
    simp
    omega

theorem toB_sorted {ivs : List Iv} : ∀ lo : Int, ivChainFrom lo ivs = true →
    sortedKeys (toB ivs) = true := by
  induction ivs with
  | nil =>
    intro lo _
    rfl
  | cons iv t ih =>
    intro lo h
    obtain ⟨h1, h2, h3, h4⟩ := ivChainFrom_cons h
    rw [toB_cons]
    refine sortedKeys_append _ (encIv_sorted h2) _ (ih (iv.h + 1) h4) ?_
    intro e he f hf
    have hb := (encIv_key_bounds h2 he).2
    have hf' := toB_keys_ge h4 f hf
    omega

theorem toB_head_lower {ivs : List Iv} {e : Int × Rec} (h : (toB ivs).head? = some e) :
    e.2.lower = true := by
  cases ivs with
  | nil => exact absurd h (by simp [toB])
  | cons iv t =>
    rw [toB_cons] at h
    unfold encIv at h
    by_cases hd : iv.l = iv.h
    · rw [if_pos hd, List.singleton_append, List.head?_cons] at h
      cases Option.some.inj h
      rfl
    · rw [if_neg hd, List.cons_append, List.head?_cons] at h
      cases Option.some.inj h
      rfl

theorem toB_last_upper {ivs : List Iv} : ∀ lo : Int, ivChainFrom lo ivs = true →
    ∀ e : Int × Rec, (toB ivs).getLast? = some e → e.2.upper = true := by
  induction ivs with
  | nil =>
    intro lo _ e he
    exact absurd he (by simp [toB])
  | cons iv t ih =>
    intro lo h e he
    obtain ⟨h1, h2, h3, h4⟩ := ivChainFrom_cons h
    rw [toB_cons] at he
    cases t with
    | nil =>
      rw [show toB ([] : List Iv) = [] from rfl, List.append_nil] at he
      unfold encIv at he
      by_cases hd : iv.l = iv.h
      · rw [if_pos hd, List.getLast?_singleton] at he
        cases Option.some.inj he
        rfl
      · rw [if_neg hd, List.getLast?_cons_cons, List.getLast?_singleton] at he
        cases Option.some.inj he
        rfl
    | cons jv u =>
      have hne : toB (jv :: u) ≠ [] := by
        rw [toB_cons]
        intro hc
        exact encIv_ne_nil jv (List.append_eq_nil.1 hc).1
      rw [getLast?_append_right hne] at he
      exact ih (iv.h + 1) h4 e he

theorem disjointB_mem {ivs : List Iv} {L H : Int} (h : disjointB ivs L H = true) :
    ∀ iv ∈ ivs, iv.h < L ∨ H < iv.l := by
  intro iv hiv
  have := List.all_eq_true.1 h iv hiv
  simpa using this

theorem disjointB_tail {iv : Iv} {t : List Iv} {L H : Int}
    (h : disjointB (iv :: t) L H = true) : disjointB t L H = true := by
  simp only [disjointB, List.all_cons, Bool.and_eq_true] at h ⊢
  exact h.2

theorem chain_split_disjoint {L H : Int} {ivs : List Iv} : ∀ lo : Int,
    ivChainFrom lo ivs = true → disjointB ivs L H = true →
    ∃ P Q, ivs = P ++ Q ∧ ivChainFrom lo P = true ∧ ivChainFrom (H + 1) Q = true ∧
      (∀ iv ∈ P, iv.h < L) ∧ (∀ iv ∈ Q, H < iv.l) := by
  induction ivs with
  | nil =>
    intro lo _ _
    exact ⟨[], [], rfl, rfl, rfl, by simp, by simp⟩
  | cons iv t ih =>
    intro lo hch hdj
    obtain ⟨h1, h2, h3, h4⟩ := ivChainFrom_cons hch
    rcases disjointB_mem hdj iv (List.mem_cons_self _ _) with hl | hr
    · obtain ⟨P, Q, hPQ, hcp, hcq, hp, hq⟩ := ih (iv.h + 1) h4 (disjointB_tail hdj)
      refine ⟨iv :: P, Q, by rw [List.cons_append, hPQ], ?_, hcq, ?_, hq⟩
      · simp only [ivChainFrom, hcp, Bool.and_true]
        simp [h1, h2, h3]
      · intro jv hjv
        rcases List.mem_cons.1 hjv with rfl | hjv'
        · exact hl
        · exact hp jv hjv'
    · refine ⟨[], iv :: t, rfl, rfl, ?_, by simp, ?_⟩
      · refine ivChainFrom_weaken hch ?_
        intro jv hjv
        rcases List.mem_cons.1 hjv with rfl | hjv'
        · omega
        · have := (ivChainFrom_mem (iv.h + 1) h4 jv hjv').1
          omega
      · intro jv hjv
        rcases List.mem_cons.1 hjv with rfl | hjv'
        · exact hr
        · have := (ivChainFrom_mem (iv.h + 1) h4 jv hjv').1
          omega

theorem insideList_nil_lt {s : State} {lo hi : Int} (h : ∀ e ∈ s, e.1 < lo) :
    insideList s lo hi = [] := by
  refine filter_nil_of_false ?_
  intro e he
  have := h e he
  simp
  omega

theorem insideList_nil_gt {s : State} {lo hi : Int} (h : ∀ e ∈ s, hi < e.1) :
    insideList s lo hi = [] := by
  refine filter_nil_of_false ?_
  intro e he
  have := h e he
  simp
  omega

theorem insideList_all {s : State} {lo hi : Int} (h : ∀ e ∈ s, lo ≤ e.1 ∧ e.1 ≤ hi) :
    insideList s lo hi = s := by
  refine filter_self_of_true ?_
  intro e he
  have := h e he
  simp
  omega

theorem remove_restores (A1 B1 A B : State) (L H : Int) (x : String)
    (hLH : L ≤ H)
    (hA1 : ∀ e ∈ A1, e.1 < L) (hB1 : ∀ e ∈ B1, H < e.1)
    (hres : (A1 = A ∧ ∀ e : Int × Rec, A1.getLast? = some e → e.2.upper = true) ∨
      (∃ A', A1 = A' ++ [(L - 1, ⟨true, false, x⟩)] ∧
        A = A' ++ [(L - 1, ⟨true, true, x⟩)] ∧ ∀ e ∈ A', e.1 < L - 1))
    (hres2 : (B1 = B ∧ ∀ e : Int × Rec, B1.head? = some e → e.2.lower = true) ∨
      (∃ B', B1 = (H + 1, ⟨false, true, x⟩) :: B' ∧
        B = (H + 1, ⟨true, true, x⟩) :: B' ∧ ∀ e ∈ B', H + 1 < e.1)) :
    RemoveOp (A1 ++ encIv ⟨L, H, x⟩ ++ B1) L H = A ++ B := by
  have hmidk : ∀ e ∈ encIv ⟨L, H, x⟩, L ≤ e.1 ∧ e.1 ≤ H :=
    fun e he => encIv_key_bounds hLH he
  have hAk : ∀ e ∈ A, e.1 < L := by
    rcases hres with ⟨he, _⟩ | ⟨A', hA1e, hAe, hA'⟩
    · rw [← he]
      exact hA1
    · intro e he
      rw [hAe] at he
      rcases List.mem_append.1 he with hm | hm
      · have := hA' e hm
        omega
      · rw [List.mem_singleton] at hm
        rw [hm]
        show L - 1 < L
        omega
  have hfb : (A1 ++ encIv ⟨L, H, x⟩ ++ B1).filter (fun e => decide (e.1 < L)) = A1 := by
    rw [List.filter_append, List.filter_append,
      filter_self_of_true (fun e he => by have := hA1 e he; simpa using this),
      filter_nil_of_false (fun e he => by have := (hmidk e he).1; simp; omega),
      filter_nil_of_false (fun e he => by have := hB1 e he; simp; omega),
      List.append_nil, List.append_nil]
  have hfa : (A1 ++ encIv ⟨L, H, x⟩ ++ B1).filter (fun e => decide (H < e.1)) = B1 := by
    rw [List.filter_append, List.filter_append,
      filter_nil_of_false (fun e he => by have := hA1 e he; simp; omega),
      filter_nil_of_false (fun e he => by have := (hmidk e he).2; simp; omega),
      filter_self_of_true (fun e he => by have := hB1 e he; simpa using this),
      List.append_nil, List.nil_append]
  have hin : insideList (A1 ++ encIv ⟨L, H, x⟩ ++ B1) L H = encIv ⟨L, H, x⟩ := by
    rw [insideList_append, insideList_append, insideList_nil_lt hA1,
      insideList_all hmidk, insideList_nil_gt hB1, List.append_nil, List.nil_append]
  have hnb : nearestBelow (A1 ++ encIv ⟨L, H, x⟩ ++ B1) L =
      (match A1.getLast? with | some e => toBnd e | none => ninfBnd) := by
    unfold nearestBelow
    rw [hfb]
  have hna : nearestAbove (A1 ++ encIv ⟨L, H, x⟩ ++ B1) H =
      (match B1.head? with | some e => toBnd e | none => pinfBnd) := by
    unfold nearestAbove
    rw [hfa]
  have hdels : applyBatch (A1 ++ encIv ⟨L, H, x⟩ ++ B1)
      ((encIv ⟨L, H, x⟩).map (fun e => Op.del e.1)) = A1 ++ B1 := by
    by_cases hq : L = H
    · have hmid : encIv (⟨L, H, x⟩ : Iv) = [(L, ⟨true, true, x⟩)] := by
        simp [encIv, hq]
      rw [hmid]
      show applyOp (A1 ++ [(L, ⟨true, true, x⟩)] ++ B1) (Op.del L) = A1 ++ B1
      rw [List.append_assoc, List.singleton_append]
      exact del_middle (fun e he => by have := hA1 e he; omega)
        (fun e he => by have := hB1 e he; omega)
    · have hlt : L < H := by omega
      have hmid : encIv (⟨L, H, x⟩ : Iv) =
          [(L, ⟨true, false, x⟩), (H, ⟨false, true, x⟩)] := by
        simp [encIv, hq]
      rw [hmid]
      show applyOp (applyOp (A1 ++ [(L, ⟨true, false, x⟩), (H, ⟨false, true, x⟩)] ++ B1)
        (Op.del L)) (Op.del H) = A1 ++ B1
      rw [List.append_assoc, List.cons_append, List.singleton_append]
      rw [del_middle (fun e he => by have := hA1 e he; omega) ?hy1]
      case hy1 =>
        intro e he
        rcases List.mem_cons.1 he with rfl | hm
        · show H ≠ L
          omega
        · have := hB1 e hm
          omega
      rw [del_middle (fun e he => by have := hA1 e he; omega)
        (fun e he => by have := hB1 e he; omega)]
  have hrb : applyBatch (A1 ++ B1)
      (removeBelowOps (A1 ++ encIv ⟨L, H, x⟩ ++ B1) L) = A ++ B1 := by
    rcases hres with ⟨he, hup⟩ | ⟨A', hA1e, hAe, hA'⟩
    · have hlow : (nearestBelow (A1 ++ encIv ⟨L, H, x⟩ ++ B1) L).isLowerBound = false := by
        rw [hnb]
        cases hgl : A1.getLast? with
        | none => rfl
        | some e =>
          have hu := hup e hgl
          show Bnd.isLowerBound (toBnd e) = false
          cases hb : e.2.lower <;>
            simp [toBnd, Bnd.isLowerBound, Bnd.isSingleBound, hu, hb]
      have hops : removeBelowOps (A1 ++ encIv ⟨L, H, x⟩ ++ B1) L = [] := by
        unfold removeBelowOps
        rw [hlow]
        simp
      rw [hops, he]
      rfl
    · have hgl : A1.getLast? = some (L - 1, (⟨true, false, x⟩ : Rec)) := by
        rw [hA1e, getLast?_append_right (by simp)]
        rfl
      have hnbv : nearestBelow (A1 ++ encIv ⟨L, H, x⟩ ++ B1) L =
          ⟨some (L - 1), true, false, x⟩ := by
        rw [hnb, hgl]
        rfl
      have hops : removeBelowOps (A1 ++ encIv ⟨L, H, x⟩ ++ B1) L =
          [Op.put (L - 1) ⟨true, true, x⟩] := by
        unfold removeBelowOps
        rw [hnbv]
        simp [Bnd.isLowerBound, Bnd.isSingleBound, Bnd.equalIP, Bnd.setDoubleBound,
          putBnd, Bnd.toRec]
      rw [hops, hA1e, hAe]
      show putRec (L - 1) ⟨true, true, x⟩ ((A' ++ [(L - 1, ⟨true, false, x⟩)]) ++ B1) =
        (A' ++ [(L - 1, ⟨true, true, x⟩)]) ++ B1
      rw [List.append_assoc, List.singleton_append, List.append_assoc,
        List.singleton_append]
      exact putRec_update B1 A' hA'
  have hra : applyBatch (A ++ B1)
      (removeAboveOps (A1 ++ encIv ⟨L, H, x⟩ ++ B1) H) = A ++ B := by
    rcases hres2 with ⟨he, hlo⟩ | ⟨B', hB1e, hBe, hB'⟩
    · have hupp : (nearestAbove (A1 ++ encIv ⟨L, H, x⟩ ++ B1) H).isUpperBound = false := by
        rw [hna]
        cases hgl : B1.head? with
        | none => rfl
        | some e =>
          have hu := hlo e hgl
          show Bnd.isUpperBound (toBnd e) = false
          cases hb : e.2.upper <;>
            simp [toBnd, Bnd.isUpperBound, Bnd.isSingleBound, hu, hb]
      have hops : removeAboveOps (A1 ++ encIv ⟨L, H, x⟩ ++ B1) H = [] := by
        unfold removeAboveOps
        rw [hupp]
        simp
      rw [hops, he]
      rfl
    · have hgl : B1.head? = some (H + 1, (⟨false, true, x⟩ : Rec)) := by
        rw [hB1e]
        rfl
      have hnav : nearestAbove (A1 ++ encIv ⟨L, H, x⟩ ++ B1) H =
          ⟨some (H + 1), false, true, x⟩ := by
        rw [hna, hgl]
        rfl
      have hops : removeAboveOps (A1 ++ encIv ⟨L, H, x⟩ ++ B1) H =
          [Op.put (H + 1) ⟨true, true, x⟩] := by
        unfold removeAboveOps
        rw [hnav]
        simp [Bnd.isUpperBound, Bnd.isSingleBound, Bnd.equalIP, Bnd.setDoubleBound,
          putBnd, Bnd.toRec]
      rw [hops, hB1e, hBe]
      show putRec (H + 1) ⟨true, true, x⟩ (A ++ (H + 1, ⟨false, true, x⟩) :: B') =
        A ++ (H + 1, ⟨true, true, x⟩) :: B'
      exact putRec_update B' A fun e he => by have := hAk e he; omega
  unfold RemoveOp removeBatch
  rw [hin, applyBatch_append, applyBatch_append, hdels, hrb, hra]

theorem bpOf_cases (A B : State) (L H : Int) (x : String)
    (hx : x ≠ "")
    (hA : ∀ e ∈ A, e.1 < L) (hB : ∀ e ∈ B, H < e.1) (hLH : L ≤ H)
    (hsA : sortedKeys A = true)
    (hAl : ∀ e : Int × Rec, A.getLast? = some e → e.2.upper = true) :
    bpOf (A ++ B) ⟨some L, true, false, x⟩ = ([], true) ∨
    (∃ A', A = A' ++ [(L - 1, ⟨true, true, x⟩)] ∧ (∀ e ∈ A', e.1 < L - 1) ∧
      bpOf (A ++ B) ⟨some L, true, false, x⟩ =
        ([Op.put (L - 1) ⟨true, false, x⟩], true)) := by
  have hipk : ipKey (⟨some L, true, false, x⟩ : Bnd) = L := rfl
  have hfb : (A ++ B).filter (fun e => decide (e.1 < L)) = A := by
    rw [List.filter_append,
      filter_self_of_true (fun e he => by have := hA e he; simpa using this),
      filter_below_nil_of (fun e he => by have := hB e he; omega), List.append_nil]
  have hnb : nearestBelow (A ++ B) L =
      (match A.getLast? with | some e => toBnd e | none => ninfBnd) := by
    unfold nearestBelow
    rw [hfb]
  rcases List.eq_nil_or_concat A with hA0 | ⟨A', la, hAc⟩
  · left
    subst hA0
    have hnb2 : nearestBelow ([] ++ B) L = ninfBnd := hnb
    unfold bpOf belowPlan
    rw [hipk, hnb2]
    simp [ninfBnd, Bnd.isLowerBound, Bnd.isSingleBound, Bnd.isDoubleBound]
  · rw [List.concat_eq_append] at hAc
    have hgl : A.getLast? = some la := by
      rw [hAc, getLast?_append_right (by simp)]
      rfl
    have hup : la.2.upper = true := hAl la hgl
    have hnb3 : nearestBelow (A ++ B) L = toBnd la := by
      rw [hnb, hgl]
    have hA'lt : ∀ e ∈ A', e.1 < la.1 := by
      have hs := hsA
      rw [hAc] at hs
      exact sorted_concat_lt A' hs
    by_cases hdem : la.2.lower = true ∧ la.1 = L - 1 ∧ la.2.reason = x
    · right
      obtain ⟨hd1, hd2, hd3⟩ := hdem
      have hla : la = (L - 1, (⟨true, true, x⟩ : Rec)) := by
        obtain ⟨k, rec⟩ := la
        obtain ⟨rl, ru, rr⟩ := rec
        have e1 : rl = true := hd1
        have e2 : k = L - 1 := hd2
        have e3 : rr = x := hd3
        have e4 : ru = true := hup
        subst e1
        subst e2
        subst e3
        subst e4
        rfl
      refine ⟨A', by rw [hAc, hla], ?_, ?_⟩
      · intro e he
        have h1 := hA'lt e he
        have h2 : la.1 = L - 1 := by
          rw [hla]
        omega
      · have hnbv : nearestBelow (A ++ B) L = ⟨some (L - 1), true, true, x⟩ := by
          rw [hnb3, hla]
          rfl
        unfold bpOf belowPlan belowCutOf
        rw [hipk, hnbv]
        simp [Bnd.isLowerBound, Bnd.isSingleBound, Bnd.isDoubleBound, Bnd.equalIP,
          Bnd.equalReason, Bnd.hasReason, Bnd.setLowerBound, putBnd, Bnd.toRec, hx]
    · left
      unfold bpOf belowPlan belowCutOf
      rw [hipk, hnb3]
      have hlowf : (toBnd la).isLowerBound = false := by
        cases hb : la.2.lower <;>
          simp [toBnd, Bnd.isLowerBound, Bnd.isSingleBound, hup, hb]
      rw [hlowf]
      simp only [Bool.false_eq_true, if_false]
      split
      · rename_i hcond
        exfalso
        simp only [Bool.and_eq_true] at hcond
        obtain ⟨⟨hdb, hiq⟩, hrq⟩ := hcond
        simp [toBnd, Bnd.isDoubleBound, hup] at hdb
        simp [toBnd, Bnd.equalIP] at hiq
        simp [toBnd, Bnd.equalReason, Bnd.hasReason] at hrq
        exact hdem ⟨hdb, hiq, by tauto⟩
      · rfl

theorem apOf_cases (A B : State) (L H : Int) (x : String)
    (hx : x ≠ "")
    (hA : ∀ e ∈ A, e.1 < L) (hB : ∀ e ∈ B, H < e.1) (hLH : L ≤ H)
    (hsB : sortedKeys B = true)
    (hBh : ∀ e : Int × Rec, B.head? = some e → e.2.lower = true) :
    apOf (A ++ B) ⟨some H, false, true, x⟩ = ([], true) ∨
    (∃ B', B = (H + 1, ⟨true, true, x⟩) :: B' ∧ (∀ e ∈ B', H + 1 < e.1) ∧
      apOf (A ++ B) ⟨some H, false, true, x⟩ =
        ([Op.put (H + 1) ⟨false, true, x⟩], true)) := by
  have hipk : ipKey (⟨some H, false, true, x⟩ : Bnd) = H := rfl
  have hfa : (A ++ B).filter (fun e => decide (H < e.1)) = B := by
    rw [List.filter_append,
      filter_above_nil_of (fun e he => by have := hA e he; omega),
      filter_self_of_true (fun e he => by have := hB e he; simpa using this),
      List.nil_append]
  have hna : nearestAbove (A ++ B) H =
      (match B.head? with | some e => toBnd e | none => pinfBnd) := by
    unfold nearestAbove
    rw [hfa]
  cases B with
  | nil =>
    left
    have hna2 : nearestAbove (A ++ []) H = pinfBnd := hna
    unfold apOf abovePlan
    rw [hipk, hna2]
    simp [pinfBnd, Bnd.isUpperBound, Bnd.isSingleBound, Bnd.isDoubleBound]
  | cons hb0 B' =>
    have hgl : (hb0 :: B').head? = some hb0 := rfl
    have hlo : hb0.2.lower = true := hBh hb0 hgl
    have hna3 : nearestAbove (A ++ hb0 :: B') H = toBnd hb0 := by
      rw [hna]
      rfl
    have hB'gt : ∀ e ∈ B', hb0.1 < e.1 := (sortedKeys_cons hb0 hsB).2
    by_cases hpro : hb0.2.upper = true ∧ hb0.1 = H + 1 ∧ hb0.2.reason = x
    · right
      obtain ⟨hd1, hd2, hd3⟩ := hpro
      have hla : hb0 = (H + 1, (⟨true, true, x⟩ : Rec)) := by
        obtain ⟨k, rec⟩ := hb0
        obtain ⟨rl, ru, rr⟩ := rec
        have e1 : ru = true := hd1
        have e2 : k = H + 1 := hd2
        have e3 : rr = x := hd3
        have e4 : rl = true := hlo
        subst e1
        subst e2
        subst e3
        subst e4
        rfl
      refine ⟨B', by rw [hla], ?_, ?_⟩
      · intro e he
        have h1 := hB'gt e he
        have h2 : hb0.1 = H + 1 := by
          rw [hla]
        omega
      · have hnav : nearestAbove (A ++ hb0 :: B') H = ⟨some (H + 1), true, true, x⟩ := by
          rw [hna3, hla]
          rfl
        unfold apOf abovePlan aboveCutOf
        rw [hipk, hnav]
        simp [Bnd.isUpperBound, Bnd.isSingleBound, Bnd.isDoubleBound, Bnd.equalIP,
          Bnd.equalReason, Bnd.hasReason, Bnd.setUpperBound, putBnd, Bnd.toRec, hx]
    · left
      unfold apOf abovePlan aboveCutOf
      rw [hipk, hna3]
      have huppf : (toBnd hb0).isUpperBound = false := by
        cases hbu : hb0.2.upper <;>
          simp [toBnd, Bnd.isUpperBound, Bnd.isSingleBound, hlo, hbu]
      rw [huppf]
      simp only [Bool.false_eq_true, if_false]
      split
      · rename_i hcond
        exfalso
        simp only [Bool.and_eq_true] at hcond
        obtain ⟨⟨hdb, hiq⟩, hrq⟩ := hcond
        simp [toBnd, Bnd.isDoubleBound, hlo] at hdb
        simp [toBnd, Bnd.equalIP] at hiq
        simp [toBnd, Bnd.equalReason, Bnd.hasReason] at hrq
        exact hpro ⟨hdb, hiq, by tauto⟩
      · rfl

theorem endPuts_apply (A1 B1 : State) (L H : Int) (x : String) (hLH : L ≤ H)
    (hA1 : ∀ e ∈ A1, e.1 < L) (hB1 : ∀ e ∈ B1, H < e.1) :
    applyBatch (A1 ++ B1)
      (endPuts ⟨some L, true, false, x⟩ ⟨some H, false, true, x⟩ true true) =
      A1 ++ encIv ⟨L, H, x⟩ ++ B1 := by
  by_cases hq : L = H
  · subst hq
    have hep : endPuts (⟨some L, true, false, x⟩ : Bnd) ⟨some L, false, true, x⟩ true true =
        [Op.put L ⟨true, true, x⟩] := by
      simp [endPuts, Bnd.equalIP, Bnd.setDoubleBound, putBnd, Bnd.toRec]
    rw [hep]
    show putRec L ⟨true, true, x⟩ (A1 ++ B1) = A1 ++ encIv ⟨L, L, x⟩ ++ B1
    have hysB : ∀ e ∈ B1, L < e.1 := hB1
    rw [putRec_insert hysB A1 hA1]
    have hmid : encIv (⟨L, L, x⟩ : Iv) = [(L, ⟨true, true, x⟩)] := by
      simp [encIv]
    rw [hmid, List.append_assoc, List.singleton_append]
  · have hep : endPuts (⟨some L, true, false, x⟩ : Bnd) ⟨some H, false, true, x⟩ true true =
        [Op.put L ⟨true, false, x⟩, Op.put H ⟨false, true, x⟩] := by
      simp [endPuts, Bnd.equalIP, hq, putBnd, Bnd.toRec]
    rw [hep]
    show putRec H ⟨false, true, x⟩ (putRec L ⟨true, false, x⟩ (A1 ++ B1)) =
      A1 ++ encIv ⟨L, H, x⟩ ++ B1
    have hysB : ∀ e ∈ B1, L < e.1 := fun e he => by have := hB1 e he; omega
    rw [putRec_insert hysB A1 hA1]
    rw [show A1 ++ (L, (⟨true, false, x⟩ : Rec)) :: B1 =
        (A1 ++ [(L, (⟨true, false, x⟩ : Rec))]) ++ B1 by
      rw [List.append_assoc, List.singleton_append]]
    have hxs1 : ∀ e ∈ A1 ++ [(L, (⟨true, false, x⟩ : Rec))], e.1 < H := by
      intro e he
      rcases List.mem_append.1 he with hm | hm
      · have := hA1 e hm
        omega
      · rw [List.mem_singleton] at hm
        rw [hm]
        show L < H
        omega
    rw [putRec_insert hB1 _ hxs1]
    have hmid : encIv (⟨L, H, x⟩ : Iv) =
        [(L, ⟨true, false, x⟩), (H, ⟨false, true, x⟩)] := by
      simp [encIv, hq]
    rw [hmid]
    simp [List.append_assoc]

theorem insert_shape (A B : State) (L H : Int) (x : String)
    (hLH : L ≤ H) (hx : x ≠ "")
    (hA : ∀ e ∈ A, e.1 < L) (hB : ∀ e ∈ B, H < e.1)
    (hsA : sortedKeys A = true) (hsB : sortedKeys B = true)
    (hAl : ∀ e : Int × Rec, A.getLast? = some e → e.2.upper = true)
    (hBh : ∀ e : Int × Rec, B.head? = some e → e.2.lower = true) :
    ∃ A1 B1,
      InsertOp (A ++ B) (parsedRange L H x) = A1 ++ encIv ⟨L, H, x⟩ ++ B1 ∧
      (∀ e ∈ A1, e.1 < L) ∧ (∀ e ∈ B1, H < e.1) ∧
      ((A1 = A ∧ ∀ e : Int × Rec, A1.getLast? = some e → e.2.upper = true) ∨
        (∃ A', A1 = A' ++ [(L - 1, ⟨true, false, x⟩)] ∧
          A = A' ++ [(L - 1, ⟨true, true, x⟩)] ∧ ∀ e ∈ A', e.1 < L - 1)) ∧
      ((B1 = B ∧ ∀ e : Int × Rec, B1.head? = some e → e.2.lower = true) ∨
        (∃ B', B1 = (H + 1, ⟨false, true, x⟩) :: B' ∧
          B = (H + 1, ⟨true, true, x⟩) :: B' ∧ ∀ e ∈ B', H + 1 < e.1)) := by
  have hin : insideList (A ++ B) L H = [] := by
    rw [insideList_append, insideList_nil_lt hA, insideList_nil_gt hB, List.append_nil]
  have hstart : InsertOp (A ++ B) (parsedRange L H x) =
      applyBatch (A ++ B)
        ((bpOf (A ++ B) ⟨some L, true, false, x⟩).1 ++
          (apOf (A ++ B) ⟨some H, false, true, x⟩).1 ++
          endPuts ⟨some L, true, false, x⟩ ⟨some H, false, true, x⟩
            (bpOf (A ++ B) ⟨some L, true, false, x⟩).2
            (apOf (A ++ B) ⟨some H, false, true, x⟩).2) := by
    show applyBatch (A ++ B)
      (insertBatch (A ++ B) ⟨some L, true, false, x⟩ ⟨some H, false, true, x⟩) = _
    unfold insertBatch
    rw [show ipKey (⟨some L, true, false, x⟩ : Bnd) = L from rfl,
      show ipKey (⟨some H, false, true, x⟩ : Bnd) = H from rfl, hin]
    simp only [List.map_nil, List.nil_append]
  rcases bpOf_cases A B L H x hx hA hB hLH hsA hAl with hbp | ⟨A', hAe, hA', hbp⟩
  · rcases apOf_cases A B L H x hx hA hB hLH hsB hBh with hap | ⟨B', hBe, hB', hap⟩
    · refine ⟨A, B, ?_, hA, hB, Or.inl ⟨rfl, hAl⟩, Or.inl ⟨rfl, hBh⟩⟩
      rw [hstart, hbp, hap]
      show applyBatch (A ++ B)
        (endPuts ⟨some L, true, false, x⟩ ⟨some H, false, true, x⟩ true true) =
        A ++ encIv ⟨L, H, x⟩ ++ B
      exact endPuts_apply A B L H x hLH hA hB
    · have hB1k : ∀ e ∈ ((H + 1, (⟨false, true, x⟩ : Rec)) :: B' : State), H < e.1 := by
        intro e he
        rcases List.mem_cons.1 he with rfl | hm
        · show H < H + 1
          omega
        · have := hB' e hm
          omega
      refine ⟨A, (H + 1, ⟨false, true, x⟩) :: B', ?_, hA, hB1k, Or.inl ⟨rfl, hAl⟩,
        Or.inr ⟨B', rfl, hBe, hB'⟩⟩
      have hput : applyBatch (A ++ B) [Op.put (H + 1) ⟨false, true, x⟩] =
          A ++ (H + 1, (⟨false, true, x⟩ : Rec)) :: B' := by
        show putRec (H + 1) ⟨false, true, x⟩ (A ++ B) = _
        rw [hBe]
        exact putRec_update B' A fun e he => by have := hA e he; omega
      rw [hstart, hbp, hap]
      show applyBatch (A ++ B)
        ([Op.put (H + 1) ⟨false, true, x⟩] ++
          endPuts ⟨some L, true, false, x⟩ ⟨some H, false, true, x⟩ true true) = _
      rw [applyBatch_append, hput]
      exact endPuts_apply A ((H + 1, ⟨false, true, x⟩) :: B') L H x hLH hA hB1k
  · have hA1k : ∀ e ∈ (A' ++ [(L - 1, (⟨true, false, x⟩ : Rec))] : State), e.1 < L := by
      intro e he
      rcases List.mem_append.1 he with hm | hm
      · have := hA' e hm
        omega
      · rw [List.mem_singleton] at hm
        rw [hm]
        show L - 1 < L
        omega
    have hput1 : applyBatch (A ++ B) [Op.put (L - 1) ⟨true, false, x⟩] =
        (A' ++ [(L - 1, (⟨true, false, x⟩ : Rec))]) ++ B := by
      show putRec (L - 1) ⟨true, false, x⟩ (A ++ B) = _
      rw [hAe, List.append_assoc, List.singleton_append,
        List.append_assoc, List.singleton_append]
      exact putRec_update B A' hA'
    rcases apOf_cases A B L H x hx hA hB hLH hsB hBh with hap | ⟨B', hBe, hB', hap⟩
    · refine ⟨A' ++ [(L - 1, ⟨true, false, x⟩)], B, ?_, hA1k, hB,
        Or.inr ⟨A', rfl, hAe, hA'⟩, Or.inl ⟨rfl, hBh⟩⟩
      rw [hstart, hbp, hap]
      show applyBatch (A ++ B)
        ([Op.put (L - 1) ⟨true, false, x⟩] ++
          endPuts ⟨some L, true, false, x⟩ ⟨some H, false, true, x⟩ true true) = _
      rw [applyBatch_append, hput1]
      exact endPuts_apply (A' ++ [(L - 1, ⟨true, false, x⟩)]) B L H x hLH hA1k hB
    · have hB1k : ∀ e ∈ ((H + 1, (⟨false, true, x⟩ : Rec)) :: B' : State), H < e.1 := by
        intro e he
        rcases List.mem_cons.1 he with rfl | hm
        · show H < H + 1
          omega
        · have := hB' e hm
          omega
      have hput2 : applyBatch ((A' ++ [(L - 1, (⟨true, false, x⟩ : Rec))]) ++ B)
          [Op.put (H + 1) ⟨false, true, x⟩] =
          (A' ++ [(L - 1, (⟨true, false, x⟩ : Rec))]) ++
            (H + 1, (⟨false, true, x⟩ : Rec)) :: B' := by
        show putRec (H + 1) ⟨false, true, x⟩ _ = _
        rw [hBe]
        exact putRec_update B' (A' ++ [(L - 1, (⟨true, false, x⟩ : Rec))])
          fun e he => by have := hA1k e he; omega
      refine ⟨A' ++ [(L - 1, ⟨true, false, x⟩)], (H + 1, ⟨false, true, x⟩) :: B', ?_,
        hA1k, hB1k, Or.inr ⟨A', rfl, hAe, hA'⟩, Or.inr ⟨B', rfl, hBe, hB'⟩⟩
      rw [hstart, hbp, hap]
      show applyBatch (A ++ B)
        (([Op.put (L - 1) ⟨true, false, x⟩] ++ [Op.put (H + 1) ⟨false, true, x⟩]) ++
          endPuts ⟨some L, true, false, x⟩ ⟨some H, false, true, x⟩ true true) = _
      rw [applyBatch_append, applyBatch_append, hput1, hput2]
      exact endPuts_apply (A' ++ [(L - 1, ⟨true, false, x⟩)])
        ((H + 1, ⟨false, true, x⟩) :: B') L H x hLH hA1k hB1k

/-- claim C7: on every invariant-satisfying state — the encoding of a
well-formed interval list — inserting a range [L, H] with a non-empty
reason that is disjoint from all stored intervals and then removing the
same range restores the state that preceded the Insert.  The demotions
Insert performs on an adjacent double boundary at L - 1 or H + 1 are
exactly undone by Remove's promote branches, the disjointness forces
both final insertions to survive, and Remove's (buggy) above cut cannot
fire because the nearest boundary above H in the inserted state is never
a single upper bound away from H + 1. -/
theorem c7_round_trip (ivs : List Iv) (L H : Int) (x : String)
    (hchain : ivChain ivs = true) (hdj : disjointB ivs L H = true)
    (hLH : L ≤ H) (hx : x ≠ "") :
    RemoveOp (InsertOp (toB ivs) (parsedRange L H x)) L H = toB ivs := by
  obtain ⟨P, Q, rfl, hcp, hcq, hp, hq⟩ := chain_split_disjoint 0 hchain hdj
  have hA : ∀ e ∈ toB P, e.1 < L := by
    intro e he
    obtain ⟨iv, hiv, hm⟩ := toB_mem he
    have h1 := (ivChainFrom_mem 0 hcp iv hiv).2.1
    have h2 := (encIv_key_bounds h1 hm).2
    have := hp iv hiv
    omega
  have hB : ∀ e ∈ toB Q, H < e.1 := by
    intro e he
    obtain ⟨iv, hiv, hm⟩ := toB_mem he
    have h1 := (ivChainFrom_mem (H + 1) hcq iv hiv).2.1
    have h2 := (encIv_key_bounds h1 hm).1
    have := hq iv hiv
    omega
  rw [toB_append]
  obtain ⟨A1, B1, heq, hA1, hB1, hres, hres2⟩ :=
    insert_shape (toB P) (toB Q) L H x hLH hx hA hB (toB_sorted 0 hcp)
      (toB_sorted (H + 1) hcq) (toB_last_upper 0 hcp) (fun e he => toB_head_lower he)
  rw [heq]
  exact remove_restores A1 B1 (toB P) (toB Q) L H x hLH hA1 hB1 hres hres2

/-- claim C7 witness: the round trip applied to the store holding the
single interval 10..20 with reason "A" and the disjoint range 30..40
with reason "B". -/
theorem c7_witness :
    ivChain [(⟨10, 20, "A"⟩ : Iv)] = true ∧
      disjointB [(⟨10, 20, "A"⟩ : Iv)] 30 40 = true ∧
      (30 : Int) ≤ 40 ∧ ("B" : String) ≠ "" ∧
      RemoveOp (InsertOp (toB [(⟨10, 20, "A"⟩ : Iv)]) (parsedRange 30 40 "B")) 30 40 =
        toB [(⟨10, 20, "A"⟩ : Iv)] :=
  ⟨by decide, by decide, by decide, by decide,
    c7_round_trip [⟨10, 20, "A"⟩] 30 40 "B" (by decide) (by decide) (by decide) (by decide)⟩

end Goripr
